import Mathlib

/-!
# Quantum-Computing-Simulator: the state-vector engine of `QAOA.h`

A shallow embedding of `src/QAOA.h`; the embedding of `src/QEC.h` follows it.

* The amplitude vector `vector<Complex> state` is a `List α` over a field `α`
  of scalars; the theorems instantiate `α` with the complex numbers, so they
  speak about exact complex arithmetic, not about `double` rounding.
* The numeric library calls of the source are arguments of the gates that use
  them: `sqrt2` stands for `sqrt(2)`, `cexp` for `std::exp` on complex numbers
  and `I` for the constant `Complex I(0, 1)`.  Over the complex numbers they
  are `Real.sqrt 2`, `Complex.exp` and `Complex.I`.
* `int` values (sizes, basis indices, qubit indices) are natural numbers: the
  qubit counts considered are those whose `1 << n_qubits` fits an `int`.
  A shift by a negative count or by the width of `int` or more is undefined
  in the source and is not modelled.
* `state[i]` outside the vector is undefined behaviour in the source.  Every
  gate therefore returns an `Option`: `none` as soon as a read or a write
  falls outside the vector.
* Each `for` loop is a monadic left fold of the loop body over
  `List.range size`, the body being a step function on the vector.
* A `std::string` is a `String`, one `Char` for each `char`; the random draw of
  `measure` is a function argument, the generator being outside the embedding.
-/

namespace QAOA

variable {α : Type}

/-- Truth value of the C++ condition `(i >> k) & 1`, for a shift count on which
the `int` shift of the source is defined (`0 ≤ k < 31`). -/
def bitSet (i k : Nat) : Bool := (i >>> k) &&& 1 != 0

/-- Read of `state[i]`; `none` outside the vector. -/
def readAt (state : List α) (i : Nat) : Option α := state[i]?

/-- Assignment `state[i] = x`; `none` outside the vector. -/
def writeAt (state : List α) (i : Nat) (x : α) : Option (List α) :=
  if i < state.length then some (state.set i x) else none

/-- Constructor `QuantumState(int n_qubits)`: `2^n_qubits` zero amplitudes,
then `state[0] = 1`. -/
def QuantumState [Field α] (n_qubits : Nat) : Option (List α) :=
  let size := 1 <<< n_qubits
  let state : List α := List.replicate size 0
  writeAt state 0 1

/-- Body of the loop of `applyHadamard` at loop index `i`. -/
def hadamardStep [Field α] (sqrt2 : α) (k : Nat) (state : List α) (i : Nat) :
    Option (List α) :=
  if bitSet i k then some state
  else do
    let j := i ||| (1 <<< k)
    let temp ← readAt state i
    let si ← readAt state i
    let sj ← readAt state j
    let state ← writeAt state i ((si + sj) / sqrt2)
    let sj ← readAt state j
    writeAt state j ((temp - sj) / sqrt2)

/-- Method `applyHadamard(int k, int n_qubits)`. -/
def applyHadamard [Field α] (sqrt2 : α) (k n_qubits : Nat) (state : List α) :
    Option (List α) :=
  let size := 1 <<< n_qubits
  (List.range size).foldlM (hadamardStep sqrt2 k) state

/-- Body of the loop of `applyX` at loop index `i`: `swap(state[i], state[i | (1 << k)])`. -/
def xStep (k : Nat) (state : List α) (i : Nat) : Option (List α) :=
  if bitSet i k then some state
  else do
    let j := i ||| (1 <<< k)
    let a ← readAt state i
    let b ← readAt state j
    let state ← writeAt state i b
    writeAt state j a

/-- Method `applyX(int k, int n_qubits)`. -/
def applyX (k n_qubits : Nat) (state : List α) : Option (List α) :=
  let size := 1 <<< n_qubits
  (List.range size).foldlM (xStep k) state

/-- Body of the loop of `applyRz` at loop index `i`. -/
def rzStep [Field α] (cexp : α → α) (I : α) (k : Nat) (theta : α) (state : List α)
    (i : Nat) : Option (List α) :=
  if bitSet i k then do
    let a ← readAt state i
    writeAt state i (a * cexp (-I * theta / 2))
  else do
    let a ← readAt state i
    writeAt state i (a * cexp (I * theta / 2))

/-- Method `applyRz(int k, int n_qubits, double theta)`. -/
def applyRz [Field α] (cexp : α → α) (I : α) (k n_qubits : Nat) (theta : α)
    (state : List α) : Option (List α) :=
  let size := 1 <<< n_qubits
  (List.range size).foldlM (rzStep cexp I k theta) state

/-- Body of the loop of `applyCZ` at loop index `i`. -/
def czStep [Field α] (k1 k2 : Nat) (state : List α) (i : Nat) : Option (List α) :=
  if bitSet i k1 && bitSet i k2 then do
    let a ← readAt state i
    writeAt state i (a * (-1))
  else some state

/-- Method `applyCZ(int k1, int k2, int n_qubits)`. -/
def applyCZ [Field α] (k1 k2 n_qubits : Nat) (state : List α) : Option (List α) :=
  let size := 1 <<< n_qubits
  (List.range size).foldlM (czStep k1 k2) state

/-- The rendering loop of `measure` (lines 84 to 88): starting from the empty
string, for `i = 0 .. n_qubits - 1` the decimal text of `(result >> i) & 1` is
put in front of the string built so far. -/
def renderBits (result n_qubits : Nat) : String :=
  (List.range n_qubits).foldl
    (fun bitstring i => toString ((result >>> i) &&& 1) ++ bitstring) ""

/-- Method `measure(int n_qubits)`.  `norm` is `std::norm`; `dist` is the draw
`discrete_distribution<int>(probabilities)(gen)`, a function of the weights
because the generator is external to the embedding. -/
def measure {ρ : Type} (norm : α → ρ) (dist : List ρ → Nat) (state : List α)
    (n_qubits : Nat) : String :=
  let probabilities := state.map norm
  let result := dist probabilities
  renderBits result n_qubits

/-- Read `bitstring[pos]` of a `std::string`: the character at `pos` inside
the string, the null character at `pos = size()`, undefined (`none`) beyond. -/
def charAt (bitstring : String) (pos : Nat) : Option Char :=
  if pos < bitstring.length then bitstring.data[pos]?
  else if pos = bitstring.length then some (Char.ofNat 0)
  else none

/-- Function `costFunction(const string& bitstring)`. -/
def costFunction (bitstring : String) : Option Int := do
  let c0 ← charAt bitstring 0
  let c1 ← charAt bitstring 1
  pure (if c0 != c1 then 1 else 0)

/-- One pass of the layer loop of `qaoaCircuit`: `applyCZ(0, 1)`, two `applyRz`
with `gamma`, then `applyX` on every qubit. -/
def qaoaLayer [Field α] (cexp : α → α) (I : α) (n_qubits : Nat) (gamma : α)
    (qs : List α) : Option (List α) := do
  let qs ← applyCZ 0 1 n_qubits qs
  let qs ← applyRz cexp I 0 n_qubits gamma qs
  let qs ← applyRz cexp I 1 n_qubits gamma qs
  (List.range n_qubits).foldlM (fun qs j => applyX j n_qubits qs) qs

/-- Function `qaoaCircuit(int p, int n_qubits, double gamma, double beta)`.
The layer loop `for (int i = 0; i < p; ++i)` runs `p.toNat` times. -/
def qaoaCircuit [Field α] (sqrt2 : α) (cexp : α → α) (I : α) (p : Int) (n_qubits : Nat)
    (gamma _beta : α) : Option (List α) := do
  let qs ← QuantumState n_qubits
  let qs ← (List.range n_qubits).foldlM (fun qs i => applyHadamard sqrt2 i n_qubits qs) qs
  (List.range p.toNat).foldlM (fun qs _ => qaoaLayer cexp I n_qubits gamma qs) qs

/-! ## Auxiliary definitions: closed forms of the loops and the gate-sequence model -/

/-- The list `[g 0, g 1, ..., g (N-1)]`. -/
def tabulate (N : Nat) (g : Nat → α) : List α := (List.range N).map g

/-- Amplitude at index `t`, zero outside the vector. -/
def amp [Zero α] (state : List α) (t : Nat) : α := state.getD t 0

/-- Loop body shared by the pair gates: skip indices whose bit `k` is set,
otherwise replace `(state[i], state[j])`, `j = i | (1 << k)`, by
`(f a b, g a b)` where `a`, `b` are the values read. -/
def pairStep (f g : α → α → α) (k : Nat) (state : List α) (i : Nat) : Option (List α) :=
  if bitSet i k then some state
  else do
    let j := i ||| (1 <<< k)
    let a ← readAt state i
    let b ← readAt state j
    let state ← writeAt state i (f a b)
    writeAt state j (g a b)

/-- Value at index `t` after a whole pair gate on qubit `k`. -/
def pairResult (f g : α → α → α) (k : Nat) (old : Nat → α) (t : Nat) : α :=
  if t.testBit k then g (old (t ^^^ 2 ^ k)) (old t) else f (old t) (old (t ^^^ 2 ^ k))

/-- Vector after the first `m` iterations of a pair gate on qubit `k`. -/
def pairProgress (f g : α → α → α) (k N : Nat) (old : Nat → α) (m : Nat) : List α :=
  tabulate N (fun t => if t < m ∨ t ^^^ 2 ^ k < m then pairResult f g k old t else old t)

/-- Vector after the first `m` iterations of a gate that multiplies the
amplitude at every index `i` by `c i`. -/
def diagProgress [Mul α] (c : Nat → α) (N : Nat) (old : Nat → α) (m : Nat) : List α :=
  tabulate N (fun t => if t < m then old t * c t else old t)

/-- Phase factor of `applyRz` at basis index `i`. -/
def rzPhase [Field α] (cexp : α → α) (I : α) (k : Nat) (theta : α) (i : Nat) : α :=
  if i.testBit k then cexp (-I * theta / 2) else cexp (I * theta / 2)

/-- Sign factor of `applyCZ` at basis index `i`. -/
def czSign [Field α] (k1 k2 : Nat) (i : Nat) : α :=
  if i.testBit k1 && i.testBit k2 then -1 else 1

/-- One gate call on a `QuantumState`: which method, on which qubit(s), with
which angle (the angle type `ρ` is the type of `double theta`). -/
inductive Gate (ρ : Type) where
  | hadamard (k : Nat)
  | pauliX (k : Nat)
  | rz (k : Nat) (theta : ρ)
  | cz (k1 k2 : Nat)

/-- All qubit indices of the call lie in `[0, n)`. -/
def Gate.inRange {ρ : Type} (n : Nat) : Gate ρ → Bool
  | .hadamard k => decide (k < n)
  | .pauliX k => decide (k < n)
  | .rz k _ => decide (k < n)
  | .cz k1 k2 => decide (k1 < n) && decide (k2 < n)

/-- Perform one gate call; `ofReal` is the conversion of a `double` angle to a
complex number that `-I * theta` applies implicitly. -/
def Gate.run {ρ : Type} [Field α] (sqrt2 : α) (cexp : α → α) (I : α) (ofReal : ρ → α)
    (n_qubits : Nat) : Gate ρ → List α → Option (List α)
  | .hadamard k, state => applyHadamard sqrt2 k n_qubits state
  | .pauliX k, state => applyX k n_qubits state
  | .rz k theta, state => applyRz cexp I k n_qubits (ofReal theta) state
  | .cz k1 k2, state => applyCZ k1 k2 n_qubits state

/-- Perform a sequence of gate calls, first call first. -/
def runGates {ρ : Type} [Field α] (sqrt2 : α) (cexp : α → α) (I : α) (ofReal : ρ → α)
    (n_qubits : Nat) (gates : List (Gate ρ)) (state : List α) : Option (List α) :=
  gates.foldlM (fun s g => g.run sqrt2 cexp I ofReal n_qubits s) state

/-- Vector after the Hadamard gates on qubits `0 .. m-1` of the initial loop of
`qaoaCircuit`: `(1/sqrt2)^m` on the first `2^m` indices, zero elsewhere. -/
def uniformProgress [Field α] (s : α) (n m : Nat) : List α :=
  tabulate (2 ^ n) (fun t => if t < 2 ^ m then (1 / s) ^ m else 0)

/-- Character printed for bit `i` of `result`. -/
def bitChar (result i : Nat) : Char := if bitSet result i then '1' else '0'

/-- Every one of the `2^n` amplitudes of `v` has squared magnitude `c`. -/
def UniformWeights (n : Nat) (c : ℝ) (v : List ℂ) : Prop :=
  v.length = 2 ^ n ∧ ∀ t, t < 2 ^ n → Complex.normSq (amp v t) = c

end QAOA

/-!
# The 3-qubit repetition-code simulator of `QEC.h`

`QEC.h` has its own class `QuantumState`, fixed to `8` amplitudes.  The same
conventions apply.  The console output of a method is returned as the list of
the lines it prints.  The generator `gen` behind `measureQubit` is outside the
embedding: a method that measures takes `gen : Nat → ρ → Bool`, where
`gen i prob` is the outcome of its `i`-th `bernoulli_distribution(prob)` draw.
-/

namespace QEC

open QAOA (bitSet readAt writeAt)

variable {α : Type}

/-- Constructor `QuantumState()`: eight zero amplitudes, then `state[0] = 1`. -/
def QuantumState [Field α] : Option (List α) :=
  let state : List α := List.replicate 8 0
  writeAt state 0 1

/-- Body of the loop of `applyX(int k)` at loop index `i`: both branches of the
`if` store `state[i]` at `newState[i ^ (1 << k)]`. -/
def xStep (k : Nat) (state newState : List α) (i : Nat) : Option (List α) :=
  if bitSet i k then do
    let a ← readAt state i
    writeAt newState (i ^^^ (1 <<< k)) a
  else do
    let a ← readAt state i
    writeAt newState (i ^^^ (1 <<< k)) a

/-- Method `applyX(int k)`: fills a fresh `newState` and assigns it to `state`. -/
def applyX [Field α] (k : Nat) (state : List α) : Option (List α) :=
  let newState : List α := List.replicate 8 0
  (List.range 8).foldlM (xStep k state) newState

/-- Body of the loop of `applyZ(int k)` at loop index `i`. -/
def zStep [Field α] (k : Nat) (state : List α) (i : Nat) : Option (List α) :=
  if bitSet i k then do
    let a ← readAt state i
    writeAt state i (a * (-1))
  else some state

/-- Method `applyZ(int k)`. -/
def applyZ [Field α] (k : Nat) (state : List α) : Option (List α) :=
  (List.range 8).foldlM (zStep k) state

/-- The accumulation loop of `measureQubit` (lines 52 to 57): `prob_0`, the sum
of `norm(state[i])` over the indices `i < 8` whose bit `k` is clear. -/
def prob0 {ρ : Type} [Zero ρ] [Add ρ] (norm : α → ρ) (k : Nat) (state : List α) :
    Option ρ :=
  (List.range 8).foldlM
    (fun prob_0 i =>
      if !bitSet i k then do
        let a ← readAt state i
        pure (prob_0 + norm a)
      else some prob_0) 0

/-- Method `measureQubit(int k)`; `dist` is the draw
`bernoulli_distribution(prob_0)(gen)`. -/
def measureQubit {ρ : Type} [Zero ρ] [Add ρ] (norm : α → ρ) (dist : ρ → Bool) (k : Nat)
    (state : List α) : Option Nat := do
  let prob_0 ← prob0 norm k state
  pure (if dist prob_0 then 0 else 1)

/-- Method `encodeBitFlip()`. -/
def encodeBitFlip [Field α] (sqrt2 : α) (state : List α) : Option (List α) := do
  let state ← writeAt state 0 (1 / sqrt2)
  writeAt state 7 (1 / sqrt2)

/-- Method `encodePhaseFlip()`. -/
def encodePhaseFlip [Field α] (sqrt2 : α) (state : List α) : Option (List α) := do
  let state ← writeAt state 0 (1 / sqrt2)
  writeAt state 7 (1 / sqrt2)

/-- The line `Syndrome bits: b0 b1 b2` printed by both correction methods. -/
def syndromeLine (bit0 bit1 bit2 : Nat) : String :=
  "Syndrome bits: " ++ toString bit0 ++ " " ++ toString bit1 ++ " " ++ toString bit2

/-- Method `correctBitFlipError()`: the lines printed and the new state. -/
def correctBitFlipError {ρ : Type} [Field α] [Zero ρ] [Add ρ] (norm : α → ρ)
    (gen : Nat → ρ → Bool) (state : List α) : Option (List String × List α) := do
  let bit0 ← measureQubit norm (gen 0) 0 state
  let bit1 ← measureQubit norm (gen 1) 1 state
  let bit2 ← measureQubit norm (gen 2) 2 state
  let out := [syndromeLine bit0 bit1 bit2]
  if bit0 != bit1 && bit0 != bit2 then do
    let state ← applyX 0 state
    pure (out ++ ["Correcting error on qubit 0"], state)
  else if bit1 != bit0 && bit1 != bit2 then do
    let state ← applyX 1 state
    pure (out ++ ["Correcting error on qubit 1"], state)
  else if bit2 != bit0 && bit2 != bit1 then do
    let state ← applyX 2 state
    pure (out ++ ["Correcting error on qubit 2"], state)
  else pure (out, state)

/-- Method `correctPhaseFlipError()`: the lines printed and the new state. -/
def correctPhaseFlipError {ρ : Type} [Field α] [Zero ρ] [Add ρ] (norm : α → ρ)
    (gen : Nat → ρ → Bool) (state : List α) : Option (List String × List α) := do
  let bit0 ← measureQubit norm (gen 0) 0 state
  let bit1 ← measureQubit norm (gen 1) 1 state
  let bit2 ← measureQubit norm (gen 2) 2 state
  let out := [syndromeLine bit0 bit1 bit2]
  if bit0 != bit1 && bit0 != bit2 then do
    let state ← applyZ 0 state
    pure (out ++ ["Correcting phase error on qubit 0"], state)
  else if bit1 != bit0 && bit1 != bit2 then do
    let state ← applyZ 1 state
    pure (out ++ ["Correcting phase error on qubit 1"], state)
  else if bit2 != bit0 && bit2 != bit1 then do
    let state ← applyZ 2 state
    pure (out ++ ["Correcting phase error on qubit 2"], state)
  else pure (out, state)

end QEC

namespace QAOA

variable {α : Type}

/-! ## Theorems -/

/-! ## Bit arithmetic on basis indices -/

theorem bitSet_eq_testBit (i k : Nat) : bitSet i k = i.testBit k := by
  simp [bitSet, Nat.testBit, Nat.and_comm]

theorem testBit_xor_two_pow (t k : Nat) : (t ^^^ 2 ^ k).testBit k = !t.testBit k := by
  simp [Nat.testBit_xor, Nat.testBit_two_pow_self]

theorem or_two_pow_eq_xor {i k : Nat} (h : i.testBit k = false) :
    i ||| 2 ^ k = i ^^^ 2 ^ k := by
  apply Nat.eq_of_testBit_eq
  intro j
  rw [Nat.testBit_or, Nat.testBit_xor, Nat.testBit_two_pow]
  by_cases hj : k = j
  · subst hj; simp [h]
  · simp [hj]

theorem xor_two_pow_eq_add {i k : Nat} (h : i.testBit k = false) :
    i ^^^ 2 ^ k = i + 2 ^ k := by
  induction k generalizing i with
  | zero =>
    obtain ⟨b, m, rfl⟩ : ∃ b m, i = Nat.bit b m := ⟨_, _, (Nat.bit_decomp i).symm⟩
    rw [Nat.testBit_bit_zero] at h
    subst h
    have h1 : (2 : Nat) ^ 0 = Nat.bit true 0 := by simp [Nat.bit_val]
    rw [h1, Nat.xor_bit]
    simp [Nat.bit_val]
  | succ k ih =>
    obtain ⟨b, m, rfl⟩ : ∃ b m, i = Nat.bit b m := ⟨_, _, (Nat.bit_decomp i).symm⟩
    rw [Nat.testBit_bit_succ] at h
    have h1 : (2 : Nat) ^ (k + 1) = Nat.bit false (2 ^ k) := by
      simp [Nat.bit_val, Nat.pow_succ, Nat.mul_comm]
    rw [h1, Nat.xor_bit, ih h]
    cases b <;> simp [Nat.bit_val] <;> omega

theorem xor_two_pow_eq_sub {i k : Nat} (h : i.testBit k = true) :
    2 ^ k ≤ i ∧ i ^^^ 2 ^ k = i - 2 ^ k := by
  have h1 : (i ^^^ 2 ^ k).testBit k = false := by simp [testBit_xor_two_pow, h]
  have h2 := xor_two_pow_eq_add h1
  rw [Nat.xor_cancel_right] at h2
  omega

theorem xor_two_pow_lt {t k n : Nat} (ht : t < 2 ^ n) (hk : k < n) : t ^^^ 2 ^ k < 2 ^ n :=
  Nat.xor_lt_two_pow ht (Nat.pow_lt_pow_right (by decide) hk)

theorem xor_two_pow_ne (t k : Nat) : t ^^^ 2 ^ k ≠ t := by
  intro h
  have := testBit_xor_two_pow t k
  rw [h] at this
  cases ht : t.testBit k <;> simp [ht] at this

/-! ## Folding a loop body over `0 .. N-1` -/

theorem foldlM_range_inv {σ : Type} (step : σ → Nat → Option σ) (P : Nat → σ) (N : Nat)
    (h : ∀ m, m < N → step (P m) m = some (P (m + 1))) :
    ∀ m, m ≤ N → (List.range m).foldlM step (P 0) = some (P m) := by
  intro m
  induction m with
  | zero => intro _; rfl
  | succ m ih =>
    intro hm
    rw [List.range_succ, List.foldlM_append, ih (by omega)]
    simp [h m (by omega)]

theorem length_tabulate (N : Nat) (g : Nat → α) : (tabulate N g).length = N := by
  simp [tabulate]

theorem tabulate_getElem_opt (N : Nat) (g : Nat → α) (t : Nat) :
    (tabulate N g)[t]? = if t < N then some (g t) else none := by
  unfold tabulate
  rw [List.getElem?_map]
  by_cases h : t < N
  · simp [h, List.getElem?_range h]
  · have : (List.range N)[t]? = none := by
      apply List.getElem?_eq_none; simp; omega
    simp [h, this]

theorem amp_tabulate [Zero α] (N : Nat) (g : Nat → α) (t : Nat) (h : t < N) :
    amp (tabulate N g) t = g t := by
  simp [amp, List.getD_eq_getElem?_getD, tabulate_getElem_opt, h]

theorem tabulate_amp [Zero α] (state : List α) :
    tabulate state.length (amp state) = state := by
  apply List.ext_getElem?
  intro t
  rw [tabulate_getElem_opt]
  by_cases h : t < state.length
  · simp [h, amp, List.getD_eq_getElem?_getD, List.getElem?_eq_getElem h]
  · simp only [h, if_false]
    exact (List.getElem?_eq_none (Nat.le_of_not_lt h)).symm

theorem tabulate_congr {N : Nat} {g g' : Nat → α} (h : ∀ t, t < N → g t = g' t) :
    tabulate N g = tabulate N g' := by
  apply List.ext_getElem?
  intro t
  rw [tabulate_getElem_opt, tabulate_getElem_opt]
  by_cases ht : t < N
  · simp [ht, h t ht]
  · simp [ht]

theorem pairStep_progress (f g : α → α → α) (old : Nat → α) {k n m : Nat} (hk : k < n)
    (hm : m < 2 ^ n) :
    pairStep f g k (pairProgress f g k (2 ^ n) old m) m
      = some (pairProgress f g k (2 ^ n) old (m + 1)) := by
  unfold pairStep
  rw [bitSet_eq_testBit]
  cases hb : m.testBit k
  · -- bit `k` of `m` is clear: the pair `(m, m ^^^ 2^k)` is rewritten
    have hj : m ||| 1 <<< k = m ^^^ 2 ^ k := by
      rw [Nat.one_shiftLeft]; exact or_two_pow_eq_xor hb
    have hadd := xor_two_pow_eq_add hb
    have hjlt : m ^^^ 2 ^ k < 2 ^ n := xor_two_pow_lt hm hk
    have hpos : 0 < 2 ^ k := Nat.two_pow_pos k
    have hjb : (m ^^^ 2 ^ k).testBit k = true := by simp [testBit_xor_two_pow, hb]
    have r1 : readAt (pairProgress f g k (2 ^ n) old m) m = some (old m) := by
      simp only [readAt, pairProgress, tabulate_getElem_opt, hm, if_true]
      have : ¬ (m < m ∨ m ^^^ 2 ^ k < m) := by omega
      rw [if_neg this]
    have r2 : readAt (pairProgress f g k (2 ^ n) old m) (m ^^^ 2 ^ k)
        = some (old (m ^^^ 2 ^ k)) := by
      simp only [readAt, pairProgress, tabulate_getElem_opt, hjlt, if_true]
      have : ¬ (m ^^^ 2 ^ k < m ∨ m ^^^ 2 ^ k ^^^ 2 ^ k < m) := by
        rw [Nat.xor_cancel_right]; omega
      rw [if_neg this]
    simp only [hj, r1, r2, Bool.false_eq_true, if_false, Option.bind_eq_bind,
      Option.some_bind]
    simp only [writeAt, pairProgress, length_tabulate, hm, if_true,
      List.length_set, hjlt, Option.some_bind]
    congr 1
    apply List.ext_getElem?
    intro t
    rw [List.getElem?_set, List.getElem?_set, tabulate_getElem_opt, tabulate_getElem_opt]
    simp only [List.length_set, length_tabulate, hm, hjlt, if_true]
    by_cases h1 : m ^^^ 2 ^ k = t
    · subst h1
      have : (m ^^^ 2 ^ k < m + 1 ∨ m ^^^ 2 ^ k ^^^ 2 ^ k < m + 1) := by
        rw [Nat.xor_cancel_right]; omega
      simp [hjlt, this, pairResult, hjb, Nat.xor_cancel_right]
    · by_cases h2 : m = t
      · subst h2
        simp [h1, hm, pairResult, hb]
      · have h3 : t ^^^ 2 ^ k ≠ m := by
          intro h; apply h1; rw [← h, Nat.xor_cancel_right]
        have : (t < m + 1 ∨ t ^^^ 2 ^ k < m + 1) ↔ (t < m ∨ t ^^^ 2 ^ k < m) := by omega
        simp only [h1, h2, if_false, this]
  · -- bit `k` of `m` is set: `continue`
    simp only [if_true]
    congr 1
    unfold pairProgress
    apply tabulate_congr
    intro t _
    have hsub := xor_two_pow_eq_sub hb
    have hpos : 0 < 2 ^ k := Nat.two_pow_pos k
    have : (t < m + 1 ∨ t ^^^ 2 ^ k < m + 1) ↔ (t < m ∨ t ^^^ 2 ^ k < m) := by
      constructor
      · rintro (h | h)
        · by_cases hE : t = m
          · right; rw [hE]; omega
          · left; omega
        · by_cases hE : t ^^^ 2 ^ k = m
          · left
            have : t = m ^^^ 2 ^ k := by rw [← hE, Nat.xor_cancel_right]
            omega
          · right; omega
      · rintro (h | h)
        · left; omega
        · right; omega
    simp only [this]

theorem pairProgress_zero [Zero α] (f g : α → α → α) (k : Nat) (state : List α) :
    pairProgress f g k state.length (amp state) 0 = state := by
  simp [pairProgress, tabulate_amp]

theorem pairProgress_full (f g : α → α → α) (k N : Nat) (old : Nat → α) :
    pairProgress f g k N old N = tabulate N (pairResult f g k old) := by
  unfold pairProgress
  apply tabulate_congr
  intro t ht
  simp [ht]

/-- A whole pair gate on a vector of length `2^n`, qubit `k < n`. -/
theorem foldlM_pairStep [Zero α] (f g : α → α → α) {k n : Nat} (hk : k < n) (state : List α)
    (hlen : state.length = 2 ^ n) :
    (List.range (1 <<< n)).foldlM (pairStep f g k) state
      = some (tabulate (2 ^ n) (pairResult f g k (amp state))) := by
  have h := foldlM_range_inv (pairStep f g k) (pairProgress f g k (2 ^ n) (amp state)) (2 ^ n)
    (fun m hm => pairStep_progress f g (amp state) hk hm) (2 ^ n) (Nat.le_refl _)
  rw [pairProgress_full, ← hlen, pairProgress_zero, hlen] at h
  rw [Nat.one_shiftLeft]
  exact h

/-- A whole diagonal gate: a loop whose body at index `i` multiplies `state[i]`
by `c i`. -/
theorem foldlM_diag [Mul α] [Zero α] (step : List α → Nat → Option (List α)) (c : Nat → α)
    (N : Nat)
    (hstep : ∀ (l : List α) (i : Nat) (a : α), l.length = N → l[i]? = some a →
      step l i = some (l.set i (a * c i)))
    (state : List α) (hlen : state.length = N) :
    (List.range N).foldlM step state = some (tabulate N (fun t => amp state t * c t)) := by
  have key : ∀ m, m < N → step (diagProgress c N (amp state) m) m
      = some (diagProgress c N (amp state) (m + 1)) := by
    intro m hm
    have hr : (diagProgress c N (amp state) m)[m]? = some (amp state m) := by
      simp [diagProgress, tabulate_getElem_opt, hm]
    rw [hstep _ m _ (by simp [diagProgress, length_tabulate]) hr]
    congr 1
    apply List.ext_getElem?
    intro t
    simp only [diagProgress, List.getElem?_set, tabulate_getElem_opt, length_tabulate, hm, if_true]
    by_cases h1 : m = t
    · subst h1; simp [hm]
    · have : t < m + 1 ↔ t < m := by omega
      simp only [h1, if_false, this]
  have h := foldlM_range_inv step (diagProgress c N (amp state)) N key N (Nat.le_refl _)
  have h0 : diagProgress c N (amp state) 0 = state := by
    simp [diagProgress, ← hlen, tabulate_amp]
  have hN : diagProgress c N (amp state) N = tabulate N (fun t => amp state t * c t) := by
    unfold diagProgress
    apply tabulate_congr
    intro t ht
    simp [ht]
  rw [h0, hN] at h
  exact h

theorem or_shift_ne {i k : Nat} (h : bitSet i k = false) : i ||| 1 <<< k ≠ i := by
  rw [bitSet_eq_testBit] at h
  rw [Nat.one_shiftLeft, or_two_pow_eq_xor h]
  exact xor_two_pow_ne i k

theorem hadamardStep_eq_pairStep [Field α] (sqrt2 : α) (k : Nat) :
    hadamardStep sqrt2 k
      = pairStep (fun a b => (a + b) / sqrt2) (fun a b => (a - b) / sqrt2) k := by
  funext state i
  unfold hadamardStep pairStep
  cases hb : bitSet i k
  · have hne := or_shift_ne hb
    simp only [Bool.false_eq_true, if_false, readAt, writeAt, Option.bind_eq_bind]
    cases hi : state[i]? with
    | none => rfl
    | some a =>
      cases hj : state[i ||| 1 <<< k]? with
      | none => rfl
      | some b =>
        simp only [Option.some_bind]
        by_cases hlt : i < state.length
        · simp only [hlt, if_true, Option.some_bind, List.length_set]
          rw [List.getElem?_set_ne (Ne.symm hne), hj]
          rfl
        · simp [hlt]
  · rfl

theorem xStep_eq_pairStep (k : Nat) :
    (xStep k : List α → Nat → Option (List α)) = pairStep (fun _ b => b) (fun a _ => a) k := rfl

/-- Closed form of `applyHadamard` on a vector of `2^n` amplitudes, `k < n`. -/
theorem applyHadamard_eq [Field α] (sqrt2 : α) {k n : Nat} (hk : k < n) (state : List α)
    (hlen : state.length = 2 ^ n) :
    applyHadamard sqrt2 k n state
      = some (tabulate (2 ^ n) (pairResult (fun a b => (a + b) / sqrt2)
          (fun a b => (a - b) / sqrt2) k (amp state))) := by
  unfold applyHadamard
  rw [hadamardStep_eq_pairStep]
  exact foldlM_pairStep _ _ hk state hlen

/-- Closed form of `applyX` on a vector of `2^n` amplitudes, `k < n`. -/
theorem applyX_eq [Zero α] {k n : Nat} (hk : k < n) (state : List α)
    (hlen : state.length = 2 ^ n) :
    applyX k n state = some (tabulate (2 ^ n) (fun t => amp state (t ^^^ 2 ^ k))) := by
  unfold applyX
  rw [xStep_eq_pairStep, foldlM_pairStep _ _ hk state hlen]
  congr 1
  apply tabulate_congr
  intro t _
  unfold pairResult
  split <;> rfl

/-- Closed form of `applyRz` on a vector of `2^n` amplitudes (any `k`). -/
theorem applyRz_eq [Field α] (cexp : α → α) (I : α) (k n : Nat) (theta : α) (state : List α)
    (hlen : state.length = 2 ^ n) :
    applyRz cexp I k n theta state
      = some (tabulate (2 ^ n) (fun t => amp state t * rzPhase cexp I k theta t)) := by
  unfold applyRz
  simp only [Nat.one_shiftLeft]
  apply foldlM_diag _ _ _ _ state hlen
  intro l i a hl hi
  have hlt : i < l.length := by
    by_contra h
    rw [List.getElem?_eq_none (Nat.le_of_not_lt h)] at hi
    cases hi
  unfold rzStep rzPhase
  rw [bitSet_eq_testBit]
  cases i.testBit k <;> simp [readAt, writeAt, hi, hlt]

/-- Closed form of `applyCZ` on a vector of `2^n` amplitudes (any `k1`, `k2`). -/
theorem applyCZ_eq [Field α] (k1 k2 n : Nat) (state : List α) (hlen : state.length = 2 ^ n) :
    applyCZ k1 k2 n state
      = some (tabulate (2 ^ n) (fun t => amp state t * czSign k1 k2 t)) := by
  unfold applyCZ
  simp only [Nat.one_shiftLeft]
  apply foldlM_diag _ _ _ _ state hlen
  intro l i a hl hi
  have hlt : i < l.length := by
    by_contra h
    rw [List.getElem?_eq_none (Nat.le_of_not_lt h)] at hi
    cases hi
  unfold czStep czSign
  rw [bitSet_eq_testBit, bitSet_eq_testBit]
  cases hc : (i.testBit k1 && i.testBit k2)
  · simp only [Bool.false_eq_true, if_false, mul_one]
    congr 1
    apply List.ext_getElem?
    intro t
    rw [List.getElem?_set]
    by_cases h : i = t
    · subst h; simp [hlt, hi]
    · simp [h]
  · simp [readAt, writeAt, hi, hlt]

theorem bitSet_false_add {i k n : Nat} (hi : i < 2 ^ n) (hk : k < n) (hb : bitSet i k = false) :
    i ||| 1 <<< k = i + 2 ^ k ∧ i ^^^ 2 ^ k = i + 2 ^ k ∧ i + 2 ^ k < 2 ^ n := by
  rw [bitSet_eq_testBit] at hb
  have h1 := xor_two_pow_eq_add hb
  have h2 := xor_two_pow_lt hi hk
  rw [Nat.one_shiftLeft, or_two_pow_eq_xor hb]
  omega

/-- Every basis index lies in exactly one pair `(i, i + 2^k)` with bit `k` of `i` clear. -/
theorem pair_cover {k n : Nat} (hk : k < n) (t : Nat) (ht : t < 2 ^ n) :
    ∃! i, (i < 2 ^ n ∧ bitSet i k = false) ∧ (t = i ∨ t = i + 2 ^ k) := by
  cases hb : t.testBit k
  · refine ⟨t, ⟨⟨ht, by rw [bitSet_eq_testBit]; exact hb⟩, Or.inl rfl⟩, ?_⟩
    rintro i ⟨⟨hi, hib⟩, h | h⟩
    · exact h.symm
    · exfalso
      rw [bitSet_eq_testBit] at hib
      rw [h, ← xor_two_pow_eq_add hib, testBit_xor_two_pow, hib] at hb
      cases hb
  · obtain ⟨hle, hsub⟩ := xor_two_pow_eq_sub hb
    have hcl : (t ^^^ 2 ^ k).testBit k = false := by simp [testBit_xor_two_pow, hb]
    refine ⟨t ^^^ 2 ^ k, ⟨⟨xor_two_pow_lt ht hk, by rw [bitSet_eq_testBit]; exact hcl⟩,
      Or.inr (by omega)⟩, ?_⟩
    rintro i ⟨⟨hi, hib⟩, h | h⟩
    · exfalso
      rw [bitSet_eq_testBit] at hib
      rw [h, hib] at hb
      cases hb
    · omega

theorem hadamard_pair_cancel [Field α] {s : α} (hs : s * s = 2) (h2 : (2 : α) ≠ 0) (a b : α) :
    ((a + b) / s + (a - b) / s) / s = a ∧ ((a + b) / s - (a - b) / s) / s = b := by
  have hs0 : s ≠ 0 := by
    rintro rfl
    apply h2
    rw [← hs]; simp
  constructor
  · field_simp
    rw [hs]; ring
  · field_simp
    rw [hs]; ring

/-- Two Hadamard gates on the same qubit cancel, over any field in which
`sqrt2 * sqrt2 = 2 ≠ 0`. -/
theorem applyHadamard_applyHadamard [Field α] {s : α} (hs : s * s = 2) (h2 : (2 : α) ≠ 0)
    {k n : Nat} (hk : k < n) (state : List α) (hlen : state.length = 2 ^ n) :
    (applyHadamard s k n state).bind (applyHadamard s k n) = some state := by
  rw [applyHadamard_eq s hk state hlen, Option.some_bind,
    applyHadamard_eq s hk _ (length_tabulate _ _)]
  congr 1
  conv_rhs => rw [← tabulate_amp state, hlen]
  apply tabulate_congr
  intro t ht
  have hx := xor_two_pow_lt ht hk
  unfold pairResult
  rw [amp_tabulate _ _ _ ht, amp_tabulate _ _ _ hx, testBit_xor_two_pow, Nat.xor_cancel_right]
  cases hb : t.testBit k
  · simp only [Bool.false_eq_true, if_false, Bool.not_false, if_true]
    exact (hadamard_pair_cancel hs h2 _ _).1
  · simp only [Bool.false_eq_true, if_false, Bool.not_true, if_true]
    exact (hadamard_pair_cancel hs h2 _ _).2

theorem sqrt2_mul_self : ((Real.sqrt 2 : ℝ) : ℂ) * ((Real.sqrt 2 : ℝ) : ℂ) = 2 := by
  rw [← Complex.ofReal_mul, Real.mul_self_sqrt (by norm_num)]
  simp

theorem applyX_applyX [Zero α] {k n : Nat} (hk : k < n) (state : List α)
    (hlen : state.length = 2 ^ n) :
    (applyX k n state).bind (applyX k n) = some state := by
  rw [applyX_eq hk state hlen, Option.some_bind, applyX_eq hk _ (length_tabulate _ _)]
  congr 1
  conv_rhs => rw [← tabulate_amp state, hlen]
  apply tabulate_congr
  intro t ht
  rw [amp_tabulate _ _ _ (xor_two_pow_lt ht hk), Nat.xor_cancel_right]

theorem czSign_mul_self [Field α] (k1 k2 t : Nat) :
    (czSign k1 k2 t : α) * czSign k1 k2 t = 1 := by
  unfold czSign
  split <;> simp

theorem applyCZ_applyCZ [Field α] (k1 k2 n : Nat) (state : List α)
    (hlen : state.length = 2 ^ n) :
    (applyCZ k1 k2 n state).bind (applyCZ k1 k2 n) = some state := by
  rw [applyCZ_eq k1 k2 n state hlen, Option.some_bind,
    applyCZ_eq k1 k2 n _ (length_tabulate _ _)]
  congr 1
  conv_rhs => rw [← tabulate_amp state, hlen]
  apply tabulate_congr
  intro t ht
  rw [amp_tabulate _ _ _ ht, mul_assoc, czSign_mul_self, mul_one]

theorem rzPhase_mul_neg (k : Nat) (θ : ℝ) (t : Nat) :
    rzPhase Complex.exp Complex.I k (θ : ℂ) t
      * rzPhase Complex.exp Complex.I k (((-θ : ℝ)) : ℂ) t = 1 := by
  unfold rzPhase
  split
  · rw [← Complex.exp_add]
    push_cast
    ring_nf
    exact Complex.exp_zero
  · rw [← Complex.exp_add]
    push_cast
    ring_nf
    exact Complex.exp_zero

/-! ## Sums of squared magnitudes -/

theorem sum_map_tabulate {β : Type} [AddCommMonoid β] (f : α → β) (N : Nat) (g : Nat → α) :
    ((tabulate N g).map f).sum = ∑ t in Finset.range N, f (g t) := by
  unfold tabulate
  rw [List.map_map]
  rfl

theorem sum_map_eq_sum_amp {β : Type} [Zero α] [AddCommMonoid β] (f : α → β) (state : List α) :
    (state.map f).sum = ∑ t in Finset.range state.length, f (amp state t) := by
  conv_lhs => rw [← tabulate_amp state]
  exact sum_map_tabulate f _ _

theorem sum_xor_reindex {β : Type} [AddCommMonoid β] (F : Nat → β) {k n : Nat} (hk : k < n) :
    ∑ t in Finset.range (2 ^ n), F (t ^^^ 2 ^ k) = ∑ t in Finset.range (2 ^ n), F t := by
  apply Finset.sum_nbij' (fun t => t ^^^ 2 ^ k) (fun t => t ^^^ 2 ^ k)
  · intro t ht
    rw [Finset.mem_range] at ht ⊢
    exact xor_two_pow_lt ht hk
  · intro t ht
    rw [Finset.mem_range] at ht ⊢
    exact xor_two_pow_lt ht hk
  · intro t _; exact Nat.xor_cancel_right _ _
  · intro t _; exact Nat.xor_cancel_right _ _
  · intro t _; rfl

theorem normSq_hadamard_pair (a b : ℂ) :
    Complex.normSq ((a + b) / ((Real.sqrt 2 : ℝ) : ℂ))
      + Complex.normSq ((a - b) / ((Real.sqrt 2 : ℝ) : ℂ))
      = Complex.normSq a + Complex.normSq b := by
  rw [map_div₀, map_div₀, Complex.normSq_ofReal, Real.mul_self_sqrt (by norm_num),
    Complex.normSq_add, Complex.normSq_sub]
  ring

theorem normSq_rzPhase (k : Nat) (θ : ℝ) (t : Nat) :
    Complex.normSq (rzPhase Complex.exp Complex.I k (θ : ℂ) t) = 1 := by
  have h : ∀ x : ℝ, Complex.normSq (Complex.exp (x * Complex.I)) = 1 := by
    intro x
    rw [Complex.normSq_eq_abs, Complex.abs_exp_ofReal_mul_I]
    norm_num
  unfold rzPhase
  split
  · have := h (-θ / 2)
    rw [← this]
    congr 2
    push_cast
    ring
  · have := h (θ / 2)
    rw [← this]
    congr 2
    push_cast
    ring

theorem normSq_czSign (k1 k2 t : Nat) : Complex.normSq (czSign k1 k2 t : ℂ) = 1 := by
  unfold czSign
  split <;> simp

/-- One gate call with indices in range keeps the length and the sum of the
squared magnitudes of a vector of `2^n` complex amplitudes. -/
theorem normSq_sum_gate (n : Nat) (g : Gate ℝ) (hg : g.inRange n = true) (state : List ℂ)
    (hlen : state.length = 2 ^ n) :
    ∃ new, g.run ((Real.sqrt 2 : ℝ) : ℂ) Complex.exp Complex.I Complex.ofReal n state
        = some new ∧ new.length = 2 ^ n ∧
      (new.map Complex.normSq).sum = (state.map Complex.normSq).sum := by
  have hold : (state.map Complex.normSq).sum
      = ∑ t in Finset.range (2 ^ n), Complex.normSq (amp state t) := by
    rw [sum_map_eq_sum_amp, hlen]
  cases g with
  | hadamard k =>
    have hk : k < n := by simpa [Gate.inRange] using hg
    refine ⟨_, applyHadamard_eq _ hk state hlen, length_tabulate _ _, ?_⟩
    rw [sum_map_tabulate, hold]
    set R := pairResult (fun a b => (a + b) / ((Real.sqrt 2 : ℝ) : ℂ))
      (fun a b => (a - b) / ((Real.sqrt 2 : ℝ) : ℂ)) k (amp state) with hR
    have hpt : ∀ t, Complex.normSq (R t) + Complex.normSq (R (t ^^^ 2 ^ k))
        = Complex.normSq (amp state t) + Complex.normSq (amp state (t ^^^ 2 ^ k)) := by
      intro t
      simp only [hR, pairResult, testBit_xor_two_pow, Nat.xor_cancel_right]
      cases t.testBit k
      · simp only [Bool.false_eq_true, if_false, Bool.not_false, if_true]
        exact normSq_hadamard_pair _ _
      · simp only [Bool.false_eq_true, if_false, Bool.not_true, if_true]
        rw [add_comm, normSq_hadamard_pair, add_comm]
    have h2 : (2 : ℝ) * ∑ t in Finset.range (2 ^ n), Complex.normSq (R t)
        = 2 * ∑ t in Finset.range (2 ^ n), Complex.normSq (amp state t) := by
      rw [two_mul, two_mul]
      nth_rewrite 2 [← sum_xor_reindex (fun t => Complex.normSq (R t)) hk]
      nth_rewrite 2 [← sum_xor_reindex (fun t => Complex.normSq (amp state t)) hk]
      rw [← Finset.sum_add_distrib, ← Finset.sum_add_distrib]
      exact Finset.sum_congr rfl (fun t _ => hpt t)
    linarith
  | pauliX k =>
    have hk : k < n := by simpa [Gate.inRange] using hg
    refine ⟨_, applyX_eq hk state hlen, length_tabulate _ _, ?_⟩
    rw [sum_map_tabulate, hold]
    exact sum_xor_reindex (fun t => Complex.normSq (amp state t)) hk
  | rz k theta =>
    refine ⟨_, applyRz_eq _ _ k n _ state hlen, length_tabulate _ _, ?_⟩
    rw [sum_map_tabulate, hold]
    apply Finset.sum_congr rfl
    intro t _
    rw [map_mul, normSq_rzPhase, mul_one]
  | cz k1 k2 =>
    refine ⟨_, applyCZ_eq k1 k2 n state hlen, length_tabulate _ _, ?_⟩
    rw [sum_map_tabulate, hold]
    apply Finset.sum_congr rfl
    intro t _
    rw [map_mul, normSq_czSign, mul_one]

theorem normSq_sum_runGates (n : Nat) (gates : List (Gate ℝ))
    (hg : ∀ g ∈ gates, g.inRange n = true) (state : List ℂ) (hlen : state.length = 2 ^ n) :
    ∃ final, runGates ((Real.sqrt 2 : ℝ) : ℂ) Complex.exp Complex.I Complex.ofReal n gates state
        = some final ∧ final.length = 2 ^ n ∧
      (final.map Complex.normSq).sum = (state.map Complex.normSq).sum := by
  induction gates generalizing state with
  | nil => exact ⟨state, rfl, hlen, rfl⟩
  | cons g gs ih =>
    obtain ⟨mid, h1, h2, h3⟩ := normSq_sum_gate n g (hg g (List.mem_cons_self _ _)) state hlen
    obtain ⟨final, h4, h5, h6⟩ := ih (fun g' hg' => hg g' (List.mem_cons_of_mem _ hg')) mid h2
    refine ⟨final, ?_, h5, by rw [h6, h3]⟩
    unfold runGates at h4 ⊢
    rw [List.foldlM_cons, h1]
    exact h4

theorem QuantumState_eq [Field α] (n : Nat) :
    (QuantumState n : Option (List α))
      = some (tabulate (2 ^ n) (fun t => if t = 0 then 1 else 0)) := by
  unfold QuantumState writeAt
  have hpos : 0 < 2 ^ n := Nat.two_pow_pos n
  simp only [Nat.one_shiftLeft, List.length_replicate, hpos, if_true]
  congr 1
  apply List.ext_getElem?
  intro t
  rw [List.getElem?_set, tabulate_getElem_opt, List.length_replicate]
  by_cases h : 0 = t
  · subst h; simp [hpos]
  · have h' : ¬ t = 0 := fun e => h e.symm
    simp only [h, h', if_false]
    by_cases ht : t < 2 ^ n
    · simp [ht, List.getElem?_replicate]
    · simp [ht, List.getElem?_replicate]

theorem testBit_of_ge_of_lt {t m : Nat} (h1 : 2 ^ m ≤ t) (h2 : t < 2 ^ (m + 1)) :
    t.testBit m = true := by
  have h3 : t = 2 ^ m + (t - 2 ^ m) := by omega
  have h4 : t - 2 ^ m < 2 ^ m := by rw [Nat.pow_succ] at h2; omega
  rw [h3, Nat.testBit_two_pow_add_eq, Nat.testBit_lt_two_pow h4]
  rfl

theorem applyHadamard_uniformProgress [Field α] (s : α) {m n : Nat} (hm : m < n) :
    applyHadamard s m n (uniformProgress s n m) = some (uniformProgress s n (m + 1)) := by
  unfold uniformProgress
  rw [applyHadamard_eq s hm _ (length_tabulate _ _)]
  congr 1
  apply tabulate_congr
  intro t ht
  have hx := xor_two_pow_lt ht hm
  have hpow : (2 : Nat) ^ (m + 1) = 2 ^ m + 2 ^ m := by rw [Nat.pow_succ]; omega
  have hc : ((1 : α) / s) ^ (m + 1) = (1 / s) ^ m / s := by
    rw [pow_succ, div_eq_mul_inv, div_eq_mul_inv, one_mul]
  unfold pairResult
  rw [amp_tabulate _ _ _ ht, amp_tabulate _ _ _ hx]
  cases hb : t.testBit m
  · have hadd := xor_two_pow_eq_add hb
    have hlt : t < 2 ^ (m + 1) ↔ t < 2 ^ m := by
      constructor
      · intro h
        by_contra hge
        have := testBit_of_ge_of_lt (Nat.le_of_not_lt hge) h
        rw [hb] at this; cases this
      · intro h; omega
    have h1 : ¬ (t ^^^ 2 ^ m < 2 ^ m) := by omega
    simp only [Bool.false_eq_true, if_false, h1, add_zero, hlt]
    by_cases h : t < 2 ^ m
    · simp only [h, if_true, hc]
    · simp only [h, if_false, zero_div]
  · obtain ⟨hle, hsub⟩ := xor_two_pow_eq_sub hb
    have h1 : ¬ (t < 2 ^ m) := by omega
    have hlt : t ^^^ 2 ^ m < 2 ^ m ↔ t < 2 ^ (m + 1) := by omega
    simp only [if_true, h1, if_false, sub_zero, hlt]
    by_cases h : t < 2 ^ (m + 1)
    · simp only [h, if_true, hc]
    · simp only [h, if_false, zero_div]

/-- The initial loop of `qaoaCircuit` turns the fresh state into the uniform vector. -/
theorem hadamard_all [Field α] (s : α) (n : Nat) :
    (QuantumState n : Option (List α)).bind
        (fun qs => (List.range n).foldlM (fun qs i => applyHadamard s i n qs) qs)
      = some (List.replicate (2 ^ n) ((1 / s) ^ n)) := by
  have h0 : (QuantumState n : Option (List α)) = some (uniformProgress s n 0) := by
    rw [QuantumState_eq]
    congr 1
    unfold uniformProgress
    apply tabulate_congr
    intro t _
    have : t < 2 ^ 0 ↔ t = 0 := by simp
    by_cases h : t = 0
    · subst h; simp
    · have h' : ¬ t < 2 ^ 0 := fun h' => h (this.1 h')
      rw [if_neg h, if_neg h']
  have hn : uniformProgress s n n = List.replicate (2 ^ n) ((1 / s) ^ n) := by
    apply List.ext_getElem?
    intro t
    unfold uniformProgress
    rw [tabulate_getElem_opt, List.getElem?_replicate]
    by_cases ht : t < 2 ^ n
    · simp only [ht, if_true]
    · simp only [ht, if_false]
  rw [h0, Option.some_bind,
    foldlM_range_inv (fun qs i => applyHadamard s i n qs) (uniformProgress s n) n
      (fun m hm => applyHadamard_uniformProgress s hm) n (Nat.le_refl _), hn]

/-! ## Rendering of a measured basis index -/

theorem toString_bit (result i : Nat) :
    toString ((result >>> i) &&& 1) = String.mk [bitChar result i] := by
  unfold bitChar bitSet
  have h : (result >>> i) &&& 1 = 0 ∨ (result >>> i) &&& 1 = 1 := by
    rw [Nat.and_one_is_mod]; omega
  rcases h with h | h <;> rw [h] <;> rfl

theorem renderBits_succ (result n : Nat) :
    renderBits result (n + 1) = String.mk [bitChar result n] ++ renderBits result n := by
  unfold renderBits
  rw [List.range_succ, List.foldl_append, List.foldl_cons, List.foldl_nil, toString_bit]

theorem renderBits_data (result n : Nat) :
    (renderBits result n).data = (List.range n).reverse.map (bitChar result) := by
  induction n with
  | zero => rfl
  | succ n ih =>
    rw [renderBits_succ, String.data_append, ih, List.range_succ]
    simp

theorem renderBits_getElem_opt (result n j : Nat) (hj : j < n) :
    (renderBits result n).data[j]? = some (bitChar result (n - 1 - j)) := by
  rw [renderBits_data, List.getElem?_map, List.getElem?_reverse (by simpa using hj)]
  rw [List.length_range, List.getElem?_range (by omega)]
  rfl

/-- C1: for every qubit count `n` and every finite sequence of `applyHadamard`,
`applyX`, `applyRz` (real angles) and `applyCZ` calls whose qubit indices lie in
`[0, n)`, run on the freshly constructed `QuantumState(n)`, every call
succeeds, the vector keeps its `2^n` entries and the sum of the squared
magnitudes of all amplitudes is exactly `1`. -/
theorem norm_one_after_gate_sequence (n : Nat) (gates : List (Gate ℝ))
    (hg : ∀ g ∈ gates, g.inRange n = true) :
    ∃ final : List ℂ,
      (QuantumState n).bind
          (runGates ((Real.sqrt 2 : ℝ) : ℂ) Complex.exp Complex.I Complex.ofReal n gates)
        = some final ∧
      final.length = 2 ^ n ∧ (final.map Complex.normSq).sum = 1 := by
  rw [QuantumState_eq, Option.some_bind]
  obtain ⟨final, h1, h2, h3⟩ := normSq_sum_runGates n gates hg
    (tabulate (2 ^ n) (fun t => if t = 0 then (1 : ℂ) else 0)) (length_tabulate _ _)
  refine ⟨final, h1, h2, ?_⟩
  rw [h3, sum_map_tabulate, Finset.sum_eq_single 0]
  · simp
  · intro t _ ht
    simp [ht]
  · intro h
    exact absurd (Finset.mem_range.2 (Nat.two_pow_pos n)) h

/-- Witness of C1: two qubits, the calls `applyHadamard(0)`, `applyCZ(0, 1)`,
`applyRz(1, 1/3)`, `applyX(1)`. -/
theorem norm_one_after_gate_sequence_witness :
    (∀ g ∈ [Gate.hadamard 0, Gate.cz 0 1, Gate.rz 1 (1 / 3 : ℝ), Gate.pauliX 1],
        g.inRange 2 = true) ∧
    ∃ final : List ℂ,
      (QuantumState 2).bind
          (runGates ((Real.sqrt 2 : ℝ) : ℂ) Complex.exp Complex.I Complex.ofReal 2
            [Gate.hadamard 0, Gate.cz 0 1, Gate.rz 1 (1 / 3 : ℝ), Gate.pauliX 1])
        = some final ∧
      final.length = 2 ^ 2 ∧ (final.map Complex.normSq).sum = 1 :=
  ⟨by simp [Gate.inRange],
   norm_one_after_gate_sequence 2 _ (by simp [Gate.inRange])⟩

/-- C2: on a vector of `2^n` amplitudes and for a qubit `k < n`, `applyHadamard`
returns a vector `new` of the same length in which, for every basis index `i`
whose bit `k` is `0` and `j = i + 2^k` (which is again an index of the vector),
`new[i] = (old[i] + old[j]) / sqrt 2` and `new[j] = (old[i] - old[j]) / sqrt 2`;
every index belongs to exactly one such pair. -/
theorem applyHadamard_pairs (n k : Nat) (state : List ℂ) (hlen : state.length = 2 ^ n)
    (hk : k < n) :
    ∃ new : List ℂ,
      applyHadamard ((Real.sqrt 2 : ℝ) : ℂ) k n state = some new ∧
      new.length = 2 ^ n ∧
      (∀ i, i < 2 ^ n → bitSet i k = false →
        i + 2 ^ k < 2 ^ n ∧
        new[i]? = some ((state.getD i 0 + state.getD (i + 2 ^ k) 0) / ((Real.sqrt 2 : ℝ) : ℂ)) ∧
        new[i + 2 ^ k]?
          = some ((state.getD i 0 - state.getD (i + 2 ^ k) 0) / ((Real.sqrt 2 : ℝ) : ℂ))) ∧
      (∀ t, t < 2 ^ n →
        ∃! i, (i < 2 ^ n ∧ bitSet i k = false) ∧ (t = i ∨ t = i + 2 ^ k)) := by
  refine ⟨_, applyHadamard_eq _ hk state hlen, length_tabulate _ _, ?_, pair_cover hk⟩
  intro i hi hb
  obtain ⟨_, hx, hj⟩ := bitSet_false_add hi hk hb
  rw [bitSet_eq_testBit] at hb
  have hjb : (i + 2 ^ k).testBit k = true := by
    rw [← hx, testBit_xor_two_pow, hb]; rfl
  have hback : (i + 2 ^ k) ^^^ 2 ^ k = i := by rw [← hx, Nat.xor_cancel_right]
  refine ⟨hj, ?_, ?_⟩
  · rw [tabulate_getElem_opt, if_pos hi]
    simp only [pairResult, hb, Bool.false_eq_true, if_false, hx]
    rfl
  · rw [tabulate_getElem_opt, if_pos hj]
    simp only [pairResult, hjb, if_true, hback]
    rfl

/-- Witness of C2: one qubit, the vector `[1, 0]`. -/
theorem applyHadamard_pairs_witness :
    ([1, 0] : List ℂ).length = 2 ^ 1 ∧ 0 < 1 ∧
    ∃ new : List ℂ,
      applyHadamard ((Real.sqrt 2 : ℝ) : ℂ) 0 1 [1, 0] = some new ∧
      new.length = 2 ^ 1 ∧
      (∀ i, i < 2 ^ 1 → bitSet i 0 = false →
        i + 2 ^ 0 < 2 ^ 1 ∧
        new[i]? = some ((([1, 0] : List ℂ).getD i 0 + ([1, 0] : List ℂ).getD (i + 2 ^ 0) 0)
          / ((Real.sqrt 2 : ℝ) : ℂ)) ∧
        new[i + 2 ^ 0]?
          = some ((([1, 0] : List ℂ).getD i 0 - ([1, 0] : List ℂ).getD (i + 2 ^ 0) 0)
              / ((Real.sqrt 2 : ℝ) : ℂ))) ∧
      (∀ t, t < 2 ^ 1 →
        ∃! i, (i < 2 ^ 1 ∧ bitSet i 0 = false) ∧ (t = i ∨ t = i + 2 ^ 0)) :=
  ⟨rfl, by decide, applyHadamard_pairs 1 0 [1, 0] rfl (by decide)⟩

/-- C3: on a vector of `2^n` amplitudes and for a qubit `k < n`, two
`applyHadamard(k, n)` calls in a row both succeed and return exactly the
original vector (exact complex arithmetic). -/
theorem applyHadamard_involutive (n k : Nat) (state : List ℂ) (hlen : state.length = 2 ^ n)
    (hk : k < n) :
    (applyHadamard ((Real.sqrt 2 : ℝ) : ℂ) k n state).bind
        (applyHadamard ((Real.sqrt 2 : ℝ) : ℂ) k n) = some state :=
  applyHadamard_applyHadamard sqrt2_mul_self two_ne_zero hk state hlen

/-- Witness of C3: two qubits, qubit `1`, the vector `[1, 2, 3, 4]`. -/
theorem applyHadamard_involutive_witness :
    ([1, 2, 3, 4] : List ℂ).length = 2 ^ 2 ∧ 1 < 2 ∧
    (applyHadamard ((Real.sqrt 2 : ℝ) : ℂ) 1 2 [1, 2, 3, 4]).bind
        (applyHadamard ((Real.sqrt 2 : ℝ) : ℂ) 1 2) = some [1, 2, 3, 4] :=
  ⟨rfl, by decide, applyHadamard_involutive 2 1 [1, 2, 3, 4] rfl (by decide)⟩

/-- C4: on a vector of `2^n` amplitudes and for a qubit `k < n`, two
`applyX(k, n)` calls in a row both succeed and return exactly the original
vector. -/
theorem applyX_involutive (n k : Nat) (state : List ℂ) (hlen : state.length = 2 ^ n)
    (hk : k < n) :
    (applyX k n state).bind (applyX k n) = some state :=
  applyX_applyX hk state hlen

/-- Witness of C4: two qubits, qubit `0`, the vector `[1, 2, 3, 4]`. -/
theorem applyX_involutive_witness :
    ([1, 2, 3, 4] : List ℂ).length = 2 ^ 2 ∧ 0 < 2 ∧
    (applyX 0 2 ([1, 2, 3, 4] : List ℂ)).bind (applyX 0 2) = some [1, 2, 3, 4] :=
  ⟨rfl, by decide, applyX_involutive 2 0 [1, 2, 3, 4] rfl (by decide)⟩

/-- C5: on a vector of `2^n` amplitudes and for any two qubit indices `k1`,
`k2` (equal or not; in particular all those in `[0, n)`), two
`applyCZ(k1, k2, n)` calls in a row both succeed and return exactly the
original vector. -/
theorem applyCZ_involutive (n k1 k2 : Nat) (state : List ℂ) (hlen : state.length = 2 ^ n) :
    (applyCZ k1 k2 n state).bind (applyCZ k1 k2 n) = some state :=
  applyCZ_applyCZ k1 k2 n state hlen

/-- Witness of C5: two qubits, `applyCZ(0, 1)`, the vector `[1, 2, 3, 4]`. -/
theorem applyCZ_involutive_witness :
    ([1, 2, 3, 4] : List ℂ).length = 2 ^ 2 ∧
    (applyCZ 0 1 2 ([1, 2, 3, 4] : List ℂ)).bind (applyCZ 0 1 2) = some [1, 2, 3, 4] :=
  ⟨rfl, applyCZ_involutive 2 0 1 [1, 2, 3, 4] rfl⟩

/-- C6: on a vector of `2^n` amplitudes, for any qubit index `k` (in particular
`k < n`) and any real angle `theta`, `applyRz(k, n, theta)` followed by
`applyRz(k, n, -theta)` succeeds and returns exactly the original vector
(exact complex arithmetic). -/
theorem applyRz_neg_cancel (n k : Nat) (θ : ℝ) (state : List ℂ)
    (hlen : state.length = 2 ^ n) :
    (applyRz Complex.exp Complex.I k n (θ : ℂ) state).bind
        (applyRz Complex.exp Complex.I k n (((-θ : ℝ)) : ℂ)) = some state := by
  rw [applyRz_eq _ _ k n _ state hlen, Option.some_bind,
    applyRz_eq _ _ k n _ _ (length_tabulate _ _)]
  congr 1
  conv_rhs => rw [← tabulate_amp state, hlen]
  apply tabulate_congr
  intro t ht
  rw [amp_tabulate _ _ _ ht, mul_assoc, rzPhase_mul_neg, mul_one]

/-- Witness of C6: one qubit, angle `1/3`, the vector `[1, 2]`. -/
theorem applyRz_neg_cancel_witness :
    ([1, 2] : List ℂ).length = 2 ^ 1 ∧
    (applyRz Complex.exp Complex.I 0 1 (((1 / 3 : ℝ)) : ℂ) [1, 2]).bind
        (applyRz Complex.exp Complex.I 0 1 (((-(1 / 3) : ℝ)) : ℂ)) = some [1, 2] :=
  ⟨rfl, applyRz_neg_cancel 1 0 (1 / 3) [1, 2] rfl⟩

/-- C7: on a vector of `2^n` amplitudes, for any qubit index `k` (in particular
`k < n`) and any real angle `theta`, `applyRz(k, n, theta)` returns a vector
`new` of the same length with `new[i] = old[i] * exp(-I * theta / 2)` for every
basis index `i` whose bit `k` is `1` and `new[i] = old[i] * exp(I * theta / 2)`
for every basis index `i` whose bit `k` is `0`. -/
theorem applyRz_phases (n k : Nat) (θ : ℝ) (state : List ℂ) (hlen : state.length = 2 ^ n) :
    ∃ new : List ℂ,
      applyRz Complex.exp Complex.I k n (θ : ℂ) state = some new ∧
      new.length = 2 ^ n ∧
      ∀ i, i < 2 ^ n →
        (bitSet i k = true →
          new[i]? = some (state.getD i 0 * Complex.exp (-Complex.I * θ / 2))) ∧
        (bitSet i k = false →
          new[i]? = some (state.getD i 0 * Complex.exp (Complex.I * θ / 2))) := by
  refine ⟨_, applyRz_eq _ _ k n _ state hlen, length_tabulate _ _, ?_⟩
  intro i hi
  rw [tabulate_getElem_opt, if_pos hi, bitSet_eq_testBit]
  constructor
  · intro hb
    simp only [rzPhase, hb, if_true]
    rfl
  · intro hb
    simp only [rzPhase, hb, Bool.false_eq_true, if_false]
    rfl

/-- Witness of C7: two qubits, qubit `1`, angle `1/3`, the vector `[1, 2, 3, 4]`. -/
theorem applyRz_phases_witness :
    ([1, 2, 3, 4] : List ℂ).length = 2 ^ 2 ∧
    ∃ new : List ℂ,
      applyRz Complex.exp Complex.I 1 2 (((1 / 3 : ℝ)) : ℂ) [1, 2, 3, 4] = some new ∧
      new.length = 2 ^ 2 ∧
      ∀ i, i < 2 ^ 2 →
        (bitSet i 1 = true →
          new[i]? = some (([1, 2, 3, 4] : List ℂ).getD i 0
            * Complex.exp (-Complex.I * ((1 / 3 : ℝ)) / 2))) ∧
        (bitSet i 1 = false →
          new[i]? = some (([1, 2, 3, 4] : List ℂ).getD i 0
            * Complex.exp (Complex.I * ((1 / 3 : ℝ)) / 2))) :=
  ⟨rfl, applyRz_phases 2 1 (1 / 3) [1, 2, 3, 4] rfl⟩

/-- C8: whatever index `v` the draw in `measure(n)` returns, the bitstring built
from it has exactly `n` characters, each of them `'0'` or `'1'`, and for every
position `j < n` the character at position `j` is the digit of bit `n-1-j` of
`v`: position `0` holds bit `n-1`, position `n-1` holds bit `0`. -/
theorem measure_bitstring {α ρ : Type} (norm : α → ρ) (dist : List ρ → Nat)
    (state : List α) (n : Nat) :
    (measure norm dist state n).length = n ∧
    (∀ c ∈ (measure norm dist state n).data, c = '0' ∨ c = '1') ∧
    ∀ j, j < n →
      (measure norm dist state n).data[j]?
        = some (if (dist (state.map norm)).testBit (n - 1 - j) then '1' else '0') := by
  unfold measure
  refine ⟨?_, ?_, ?_⟩
  · show (renderBits _ n).data.length = n
    rw [renderBits_data]; simp
  · intro c hc
    rw [renderBits_data, List.mem_map] at hc
    obtain ⟨i, _, rfl⟩ := hc
    unfold bitChar
    cases bitSet (dist (List.map norm state)) i
    · left; rfl
    · right; rfl
  · intro j hj
    rw [renderBits_getElem_opt _ _ _ hj, bitChar, bitSet_eq_testBit]

/-- Witness of C8: three qubits, the basis state of index `6`, the draw
returning `6`, rendered with `'1'` at position `0` and `'0'` at position `2`. -/
theorem measure_bitstring_witness :
    (measure Complex.normSq (fun _ => 6) ([0, 0, 0, 0, 0, 0, 1, 0] : List ℂ) 3).length = 3 ∧
    (measure Complex.normSq (fun _ => 6) ([0, 0, 0, 0, 0, 0, 1, 0] : List ℂ) 3).data[0]?
      = some '1' ∧
    (measure Complex.normSq (fun _ => 6) ([0, 0, 0, 0, 0, 0, 1, 0] : List ℂ) 3).data[2]?
      = some '0' :=
  have h := measure_bitstring Complex.normSq (fun _ => 6)
    ([0, 0, 0, 0, 0, 0, 1, 0] : List ℂ) 3
  ⟨h.1, h.2.2 0 (by decide), h.2.2 2 (by decide)⟩

/-- C9: for every string of length at least `2`, `costFunction` returns `1` when
the characters at positions `0` and `1` differ and `0` when they are equal; in
particular it maps `"01"` and `"10"` to `1`, `"00"` and `"11"` to `0`. -/
theorem costFunction_cut (bitstring : String) (hlen : 2 ≤ bitstring.length) :
    (∃ c0 c1, bitstring.data[0]? = some c0 ∧ bitstring.data[1]? = some c1 ∧
      costFunction bitstring = some (if c0 = c1 then 0 else 1)) ∧
    costFunction "01" = some 1 ∧ costFunction "10" = some 1 ∧
    costFunction "00" = some 0 ∧ costFunction "11" = some 0 := by
  refine ⟨?_, by decide, by decide, by decide, by decide⟩
  have hl : bitstring.length = bitstring.data.length := rfl
  have h0 : 0 < bitstring.data.length := by omega
  have h1 : 1 < bitstring.data.length := by omega
  refine ⟨bitstring.data[0], bitstring.data[1], List.getElem?_eq_getElem h0,
    List.getElem?_eq_getElem h1, ?_⟩
  have e0 : charAt bitstring 0 = some bitstring.data[0] := by
    unfold charAt
    rw [if_pos (by omega)]
    exact List.getElem?_eq_getElem h0
  have e1 : charAt bitstring 1 = some bitstring.data[1] := by
    unfold charAt
    rw [if_pos (by omega)]
    exact List.getElem?_eq_getElem h1
  unfold costFunction
  rw [e0, e1]
  by_cases h : bitstring.data[0] = bitstring.data[1]
  · simp [h]
  · simp [h]

/-- Witness of C9: the string `"01"`. -/
theorem costFunction_cut_witness :
    2 ≤ "01".length ∧
    (∃ c0 c1, "01".data[0]? = some c0 ∧ "01".data[1]? = some c1 ∧
      costFunction "01" = some (if c0 = c1 then 0 else 1)) :=
  ⟨by decide, (costFunction_cut "01" (by decide)).1⟩

/-- C10: for every qubit count `n` (in particular `n ≥ 1`) and all real `gamma`,
`beta`, `qaoaCircuit(0, n, gamma, beta)` succeeds and returns the uniform
superposition: `2^n` amplitudes, each equal to `(1/sqrt 2)^n`. -/
theorem qaoaCircuit_zero_layers (n : Nat) (γ β : ℝ) :
    qaoaCircuit ((Real.sqrt 2 : ℝ) : ℂ) Complex.exp Complex.I 0 n (γ : ℂ) (β : ℂ)
      = some (List.replicate (2 ^ n) ((1 / ((Real.sqrt 2 : ℝ) : ℂ)) ^ n)) := by
  have h := hadamard_all ((Real.sqrt 2 : ℝ) : ℂ) n
  rw [QuantumState_eq, Option.some_bind] at h
  unfold qaoaCircuit
  rw [QuantumState_eq]
  simp only [Option.bind_eq_bind, Option.some_bind, h, Int.toNat_zero, List.range_zero,
    List.foldlM_nil, Option.pure_def]

/-! ## Qubit indices outside `[0, n)` -/

theorem testBit_outside {t k n : Nat} (ht : t < 2 ^ n) (hk : n ≤ k) : t.testBit k = false :=
  Nat.testBit_lt_two_pow (Nat.lt_of_lt_of_le ht (Nat.pow_le_pow_right (by decide) hk))

/-- C14 fails on the code: `applyCZ(2, 0, 2)` on a two-qubit state, whose first
index `2` is outside `[0, 2)`, raises no error; it returns normally with the
amplitude vector unchanged. -/
theorem applyCZ_outside_returns_unchanged :
    ¬ (2 < 2) ∧ applyCZ 2 0 2 ([1, 2, 3, 4] : List ℂ) = some [1, 2, 3, 4] :=
  ⟨by decide, rfl⟩

/-- C14 as amended, for the indices on which the shifts of the source are
defined (`k < 31`, the width of `int`): on a vector of `2^n` amplitudes and for
an index `k` with `n ≤ k`, `applyCZ` with `k` as either index, the other index
being any `k2 < 31`, returns normally with the amplitude vector unchanged, and
`applyRz(k, n, theta)` returns normally with every amplitude multiplied by
`exp(I * theta / 2)`.  Nothing is stated on `applyHadamard` and `applyX` with
such an index, nor on an index that is negative or not below `31`. -/
theorem gates_with_index_outside (n k : Nat) (hk : n ≤ k) (hw : k < 31) (state : List ℂ)
    (hlen : state.length = 2 ^ n) :
    (∀ k2, k2 < 31 → applyCZ k k2 n state = some state ∧ applyCZ k2 k n state = some state) ∧
    (∀ θ : ℝ, ∃ new : List ℂ,
      applyRz Complex.exp Complex.I k n (θ : ℂ) state = some new ∧ new.length = 2 ^ n ∧
      ∀ i, i < 2 ^ n → new[i]? = some (state.getD i 0 * Complex.exp (Complex.I * θ / 2))) := by
  refine ⟨?_, ?_⟩
  · intro k2 _
    have h : ∀ k1 k2', (k1 = k ∨ k2' = k) → applyCZ k1 k2' n state = some state := by
      intro k1 k2' hor
      rw [applyCZ_eq k1 k2' n state hlen]
      congr 1
      conv_rhs => rw [← tabulate_amp state, hlen]
      apply tabulate_congr
      intro t ht
      have : (t.testBit k1 && t.testBit k2') = false := by
        rcases hor with rfl | rfl
        · rw [testBit_outside ht hk]; rfl
        · rw [testBit_outside ht hk]; simp
      simp [czSign, this]
    exact ⟨h k k2 (Or.inl rfl), h k2 k (Or.inr rfl)⟩
  · intro θ
    refine ⟨_, applyRz_eq _ _ k n _ state hlen, length_tabulate _ _, ?_⟩
    intro i hi
    rw [tabulate_getElem_opt, if_pos hi]
    simp only [rzPhase, testBit_outside hi hk, Bool.false_eq_true, if_false]
    rfl

/-- Witness of amended C14: index `2` on the two-qubit vector `[1, 2, 3, 4]`. -/
theorem gates_with_index_outside_witness :
    2 ≤ 2 ∧ 2 < 31 ∧ ([1, 2, 3, 4] : List ℂ).length = 2 ^ 2 ∧
    (∀ k2, k2 < 31 →
      applyCZ 2 k2 2 ([1, 2, 3, 4] : List ℂ) = some [1, 2, 3, 4] ∧
      applyCZ k2 2 2 ([1, 2, 3, 4] : List ℂ) = some [1, 2, 3, 4]) ∧
    (∀ θ : ℝ, ∃ new : List ℂ,
      applyRz Complex.exp Complex.I 2 2 (θ : ℂ) [1, 2, 3, 4] = some new ∧
      new.length = 2 ^ 2 ∧
      ∀ i, i < 2 ^ 2 →
        new[i]? = some (([1, 2, 3, 4] : List ℂ).getD i 0 * Complex.exp (Complex.I * θ / 2))) :=
  ⟨by decide, by decide, rfl,
    gates_with_index_outside 2 2 (by decide) (by decide) [1, 2, 3, 4] rfl⟩

/-- C19: for `k < n`, the partner `i | (1 << k)` of every index `i < 2^n` whose
bit `k` is clear is again below `2^n`; and on a vector of `2^n` amplitudes
`applyHadamard(k, n)`, `applyX(k, n)`, `applyRz(k, n, theta)` and
`applyCZ(k, k2, n)`, `applyCZ(k2, k, n)` with `k2 < n` all complete without a
read or write outside the vector and return a vector of `2^n` amplitudes. -/
theorem gates_stay_in_bounds (n k : Nat) (hk : k < n) :
    (∀ i, i < 2 ^ n → bitSet i k = false → i ||| 1 <<< k < 2 ^ n) ∧
    ∀ state : List ℂ, state.length = 2 ^ n →
      (∃ new, applyHadamard ((Real.sqrt 2 : ℝ) : ℂ) k n state = some new ∧
        new.length = 2 ^ n) ∧
      (∃ new, applyX k n state = some new ∧ new.length = 2 ^ n) ∧
      (∀ θ : ℝ, ∃ new, applyRz Complex.exp Complex.I k n (θ : ℂ) state = some new ∧
        new.length = 2 ^ n) ∧
      (∀ k2, k2 < n →
        (∃ new, applyCZ k k2 n state = some new ∧ new.length = 2 ^ n) ∧
        (∃ new, applyCZ k2 k n state = some new ∧ new.length = 2 ^ n)) := by
  refine ⟨?_, ?_⟩
  · intro i hi hb
    obtain ⟨h1, _, h3⟩ := bitSet_false_add hi hk hb
    rw [h1]; exact h3
  · intro state hlen
    exact ⟨⟨_, applyHadamard_eq _ hk state hlen, length_tabulate _ _⟩,
      ⟨_, applyX_eq hk state hlen, length_tabulate _ _⟩,
      fun θ => ⟨_, applyRz_eq _ _ k n _ state hlen, length_tabulate _ _⟩,
      fun k2 _ => ⟨⟨_, applyCZ_eq k k2 n state hlen, length_tabulate _ _⟩,
        ⟨_, applyCZ_eq k2 k n state hlen, length_tabulate _ _⟩⟩⟩

/-- Witness of C19: qubit `1` of a two-qubit state. -/
theorem gates_stay_in_bounds_witness :
    1 < 2 ∧
    (∀ i, i < 2 ^ 2 → bitSet i 1 = false → i ||| 1 <<< 1 < 2 ^ 2) ∧
    ∀ state : List ℂ, state.length = 2 ^ 2 →
      (∃ new, applyHadamard ((Real.sqrt 2 : ℝ) : ℂ) 1 2 state = some new ∧
        new.length = 2 ^ 2) ∧
      (∃ new, applyX 1 2 state = some new ∧ new.length = 2 ^ 2) ∧
      (∀ θ : ℝ, ∃ new, applyRz Complex.exp Complex.I 1 2 (θ : ℂ) state = some new ∧
        new.length = 2 ^ 2) ∧
      (∀ k2, k2 < 2 →
        (∃ new, applyCZ 1 k2 2 state = some new ∧ new.length = 2 ^ 2) ∧
        (∃ new, applyCZ k2 1 2 state = some new ∧ new.length = 2 ^ 2)) :=
  ⟨by decide, gates_stay_in_bounds 2 1 (by decide)⟩

/-! ## The weights of the state built by `qaoaCircuit` -/

theorem uniformWeights_applyCZ {n : Nat} {c : ℝ} {v : List ℂ} (k1 k2 : Nat)
    (h : UniformWeights n c v) :
    ∃ new, applyCZ k1 k2 n v = some new ∧ UniformWeights n c new := by
  refine ⟨_, applyCZ_eq k1 k2 n v h.1, length_tabulate _ _, ?_⟩
  intro t ht
  rw [amp_tabulate _ _ _ ht, map_mul, normSq_czSign, mul_one, h.2 t ht]

theorem uniformWeights_applyRz {n : Nat} {c : ℝ} {v : List ℂ} (k : Nat) (θ : ℝ)
    (h : UniformWeights n c v) :
    ∃ new, applyRz Complex.exp Complex.I k n (θ : ℂ) v = some new ∧
      UniformWeights n c new := by
  refine ⟨_, applyRz_eq _ _ k n _ v h.1, length_tabulate _ _, ?_⟩
  intro t ht
  rw [amp_tabulate _ _ _ ht, map_mul, normSq_rzPhase, mul_one, h.2 t ht]

theorem uniformWeights_applyX {n : Nat} {c : ℝ} {v : List ℂ} {k : Nat} (hk : k < n)
    (h : UniformWeights n c v) :
    ∃ new, applyX k n v = some new ∧ UniformWeights n c new := by
  refine ⟨_, applyX_eq hk v h.1, length_tabulate _ _, ?_⟩
  intro t ht
  rw [amp_tabulate _ _ _ ht, h.2 _ (xor_two_pow_lt ht hk)]

theorem uniformWeights_applyX_all {n : Nat} {c : ℝ} (l : List Nat) (hl : ∀ j ∈ l, j < n)
    (v : List ℂ) (h : UniformWeights n c v) :
    ∃ new, l.foldlM (fun qs j => applyX j n qs) v = some new ∧ UniformWeights n c new := by
  induction l generalizing v with
  | nil => exact ⟨v, rfl, h⟩
  | cons j l ih =>
    obtain ⟨mid, h1, h2⟩ := uniformWeights_applyX (hl j (List.mem_cons_self _ _)) h
    obtain ⟨new, h3, h4⟩ := ih (fun j' hj' => hl j' (List.mem_cons_of_mem _ hj')) mid h2
    refine ⟨new, ?_, h4⟩
    rw [List.foldlM_cons, h1]
    exact h3

theorem uniformWeights_qaoaLayer {n : Nat} {c : ℝ} {v : List ℂ} (γ : ℝ)
    (h : UniformWeights n c v) :
    ∃ new, qaoaLayer Complex.exp Complex.I n (γ : ℂ) v = some new ∧
      UniformWeights n c new := by
  obtain ⟨v1, e1, h1⟩ := uniformWeights_applyCZ 0 1 h
  obtain ⟨v2, e2, h2⟩ := uniformWeights_applyRz 0 γ h1
  obtain ⟨v3, e3, h3⟩ := uniformWeights_applyRz 1 γ h2
  obtain ⟨v4, e4, h4⟩ := uniformWeights_applyX_all (List.range n)
    (fun j hj => List.mem_range.1 hj) v3 h3
  refine ⟨v4, ?_, h4⟩
  unfold qaoaLayer
  rw [e1, Option.bind_eq_bind, Option.some_bind, e2, Option.some_bind, e3, Option.some_bind]
  exact e4

theorem uniformWeights_layers {n : Nat} {c : ℝ} (γ : ℝ) (l : List Nat) (v : List ℂ)
    (h : UniformWeights n c v) :
    ∃ new, l.foldlM (fun qs _ => qaoaLayer Complex.exp Complex.I n (γ : ℂ) qs) v = some new ∧
      UniformWeights n c new := by
  induction l generalizing v with
  | nil => exact ⟨v, rfl, h⟩
  | cons j l ih =>
    obtain ⟨mid, h1, h2⟩ := uniformWeights_qaoaLayer γ h
    obtain ⟨new, h3, h4⟩ := ih mid h2
    refine ⟨new, ?_, h4⟩
    rw [List.foldlM_cons, h1]
    exact h3

theorem uniformWeights_initial (n : Nat) :
    UniformWeights n (1 / 2 ^ n)
      (List.replicate (2 ^ n) ((1 / ((Real.sqrt 2 : ℝ) : ℂ)) ^ n)) := by
  refine ⟨List.length_replicate _ _, ?_⟩
  intro t ht
  have : amp (List.replicate (2 ^ n) ((1 / ((Real.sqrt 2 : ℝ) : ℂ)) ^ n)) t
      = (1 / ((Real.sqrt 2 : ℝ) : ℂ)) ^ n := by
    simp [amp, List.getD_eq_getElem?_getD, List.getElem?_replicate, ht]
  rw [this, map_pow, map_div₀, Complex.normSq_ofReal, Real.mul_self_sqrt (by norm_num)]
  simp

/-- The state returned by `qaoaCircuit`: it exists and all its weights are `1/2^n`. -/
theorem qaoaCircuit_uniformWeights (p : Int) (n : Nat) (γ β : ℝ) :
    ∃ v, qaoaCircuit ((Real.sqrt 2 : ℝ) : ℂ) Complex.exp Complex.I p n (γ : ℂ) (β : ℂ)
        = some v ∧ UniformWeights n (1 / 2 ^ n) v := by
  have h := hadamard_all ((Real.sqrt 2 : ℝ) : ℂ) n
  rw [QuantumState_eq, Option.some_bind] at h
  obtain ⟨v, hv, hu⟩ := uniformWeights_layers γ (List.range p.toNat) _ (uniformWeights_initial n)
  refine ⟨v, ?_, hu⟩
  unfold qaoaCircuit
  rw [QuantumState_eq]
  simp only [Option.bind_eq_bind, Option.some_bind, h]
  exact hv

theorem map_normSq_of_uniformWeights {n : Nat} {c : ℝ} {v : List ℂ}
    (h : UniformWeights n c v) : v.map Complex.normSq = List.replicate (2 ^ n) c := by
  apply List.ext_getElem?
  intro t
  rw [List.getElem?_map, List.getElem?_replicate]
  by_cases ht : t < 2 ^ n
  · have hlt : t < v.length := by rw [h.1]; exact ht
    have := h.2 t ht
    simp only [amp, List.getD_eq_getElem?_getD, List.getElem?_eq_getElem hlt,
      Option.getD_some] at this
    simp [ht, List.getElem?_eq_getElem hlt, this]
  · have hge : v.length ≤ t := by rw [h.1]; omega
    simp [ht, List.getElem?_eq_none hge]

/-- C15: for every depth `p` (in particular `p ≥ 0`), qubit count `n` (in
particular `n ≥ 2`), angle `gamma` and any two mixer angles `beta1`, `beta2`,
`qaoaCircuit(p, n, gamma, beta1)` and `qaoaCircuit(p, n, gamma, beta2)` both
succeed and return the same vector of `2^n` amplitudes. -/
theorem qaoaCircuit_ignores_beta (p : Int) (n : Nat) (γ β1 β2 : ℝ) :
    ∃ v : List ℂ, v.length = 2 ^ n ∧
      qaoaCircuit ((Real.sqrt 2 : ℝ) : ℂ) Complex.exp Complex.I p n (γ : ℂ) (β1 : ℂ) = some v ∧
      qaoaCircuit ((Real.sqrt 2 : ℝ) : ℂ) Complex.exp Complex.I p n (γ : ℂ) (β2 : ℂ) = some v := by
  obtain ⟨v, hv, hu⟩ := qaoaCircuit_uniformWeights p n γ β1
  exact ⟨v, hu.1, hv, hv⟩

/-- C17: for every depth `p`, qubit count `n` (in particular `n ≥ 2`) and real
`gamma`, `beta`, `qaoaCircuit(p, n, gamma, beta)` succeeds and each of the `2^n`
amplitudes of its result has squared magnitude exactly `1/2^n`; the weights
that `measure` passes to the sampler are therefore the uniform list, whatever
`p`, `gamma` and `beta` are, and the bitstring `measure` returns is the
rendering of the sampler's draw from that fixed list. -/
theorem qaoaCircuit_weights_uniform (p : Int) (n : Nat) (γ β : ℝ) :
    ∃ v : List ℂ,
      qaoaCircuit ((Real.sqrt 2 : ℝ) : ℂ) Complex.exp Complex.I p n (γ : ℂ) (β : ℂ) = some v ∧
      v.length = 2 ^ n ∧
      (∀ i, i < 2 ^ n → Complex.normSq (v.getD i 0) = 1 / 2 ^ n) ∧
      v.map Complex.normSq = List.replicate (2 ^ n) (1 / 2 ^ n) ∧
      ∀ dist : List ℝ → Nat,
        measure Complex.normSq dist v n
          = renderBits (dist (List.replicate (2 ^ n) (1 / 2 ^ n))) n := by
  obtain ⟨v, hv, hu⟩ := qaoaCircuit_uniformWeights p n γ β
  refine ⟨v, hv, hu.1, hu.2, map_normSq_of_uniformWeights hu, ?_⟩
  intro dist
  unfold measure
  rw [map_normSq_of_uniformWeights hu]

/-! ## The cost of a rendered sample -/

theorem costFunction_of_chars (bitstring : String) (c0 c1 : Char)
    (h0 : bitstring.data[0]? = some c0) (h1 : bitstring.data[1]? = some c1) :
    costFunction bitstring = some (if c0 = c1 then 0 else 1) := by
  have hl : bitstring.length = bitstring.data.length := rfl
  have l1 : 1 < bitstring.data.length := by
    by_contra h
    rw [List.getElem?_eq_none (Nat.le_of_not_lt h)] at h1
    cases h1
  have e0 : charAt bitstring 0 = some c0 := by
    unfold charAt
    rw [if_pos (by omega)]
    exact h0
  have e1 : charAt bitstring 1 = some c1 := by
    unfold charAt
    rw [if_pos (by omega)]
    exact h1
  unfold costFunction
  rw [e0, e1]
  by_cases h : c0 = c1
  · simp [h]
  · simp [h]

theorem bitChar_eq_iff (v i j : Nat) :
    bitChar v i = bitChar v j ↔ v.testBit i = v.testBit j := by
  unfold bitChar
  rw [bitSet_eq_testBit, bitSet_eq_testBit]
  cases v.testBit i <;> cases v.testBit j <;> simp

theorem costFunction_renderBits (v n : Nat) (hn : 2 ≤ n) :
    costFunction (renderBits v n)
      = some (if v.testBit (n - 1) = v.testBit (n - 2) then 0 else 1) := by
  have h0 := renderBits_getElem_opt v n 0 (by omega)
  have h1 := renderBits_getElem_opt v n 1 (by omega)
  rw [costFunction_of_chars _ _ _ h0 h1]
  have e : n - 1 - 1 = n - 2 := by omega
  simp only [Nat.sub_zero, e, bitChar_eq_iff]

/-- C20: for `n ≥ 2` and whatever index `v` the draw of `measure(n)` returns,
`costFunction` of the rendered bitstring is `1` exactly when bits `n-1` and
`n-2` of `v` differ, and `0` exactly when they are equal.  For `n = 2` these are
the bits of qubits `1` and `0`, the pair of the cost layer; for every `n > 2`
there is an index below `2^n` whose bits `0` and `1` differ and whose rendered
bitstring has cost `0`. -/
theorem cost_of_measured_bitstring {α ρ : Type} (norm : α → ρ) (dist : List ρ → Nat)
    (state : List α) (n : Nat) (hn : 2 ≤ n) :
    (costFunction (measure norm dist state n) = some 1 ↔
      (dist (state.map norm)).testBit (n - 1) ≠ (dist (state.map norm)).testBit (n - 2)) ∧
    (costFunction (measure norm dist state n) = some 0 ↔
      (dist (state.map norm)).testBit (n - 1) = (dist (state.map norm)).testBit (n - 2)) ∧
    (n = 2 →
      (costFunction (measure norm dist state n) = some 1 ↔
        (dist (state.map norm)).testBit 0 ≠ (dist (state.map norm)).testBit 1)) ∧
    (2 < n →
      ∃ w, w < 2 ^ n ∧ w.testBit 0 ≠ w.testBit 1 ∧
        costFunction (measure norm (fun _ => w) state n) = some 0) := by
  unfold measure
  refine ⟨?_, ?_, ?_, ?_⟩
  · rw [costFunction_renderBits _ _ hn]
    by_cases h : (dist (state.map norm)).testBit (n - 1) = (dist (state.map norm)).testBit (n - 2)
    · simp [h]
    · simp [h]
  · rw [costFunction_renderBits _ _ hn]
    by_cases h : (dist (state.map norm)).testBit (n - 1) = (dist (state.map norm)).testBit (n - 2)
    · simp [h]
    · simp [h]
  · rintro rfl
    rw [costFunction_renderBits _ _ hn]
    show some (if (dist (state.map norm)).testBit 1 = (dist (state.map norm)).testBit 0
        then (0 : Int) else 1) = some 1 ↔ _
    by_cases h : (dist (state.map norm)).testBit 1 = (dist (state.map norm)).testBit 0
    · rw [if_pos h]
      exact ⟨fun e => absurd e (by decide), fun hne => absurd h.symm hne⟩
    · rw [if_neg h]
      exact ⟨fun _ e => h e.symm, fun _ => rfl⟩
  · intro h2
    refine ⟨1, Nat.one_lt_two_pow (by omega), by decide, ?_⟩
    rw [costFunction_renderBits _ _ hn]
    have t1 : Nat.testBit 1 (n - 1) = false :=
      Nat.testBit_lt_two_pow (Nat.one_lt_two_pow (by omega))
    have t2 : Nat.testBit 1 (n - 2) = false :=
      Nat.testBit_lt_two_pow (Nat.one_lt_two_pow (by omega))
    simp [t1, t2]

/-- Witness of C20: three qubits, the draw `1` (qubit `0` set, qubit `1` clear). -/
theorem cost_of_measured_bitstring_witness :
    2 ≤ 3 ∧
    (costFunction (measure Complex.normSq (fun _ => 1) ([0, 1, 0, 0, 0, 0, 0, 0] : List ℂ) 3)
        = some 0 ↔
      Nat.testBit 1 (3 - 1) = Nat.testBit 1 (3 - 2)) :=
  ⟨by decide,
    (cost_of_measured_bitstring Complex.normSq (fun _ => 1)
      ([0, 1, 0, 0, 0, 0, 0, 0] : List ℂ) 3 (by decide)).2.1⟩

end QAOA

namespace QEC

open QAOA (bitSet readAt writeAt)

variable {α : Type}

/-! ## The 3-qubit simulator on explicit vectors of eight amplitudes -/

theorem exists_cons_of_length {l : List α} {n : Nat} (h : l.length = n + 1) :
    ∃ a t, l = a :: t ∧ t.length = n := by
  cases l with
  | nil => simp at h
  | cons a t => exact ⟨a, t, rfl, by simpa using h⟩

theorem eq_of_length_eight {l : List α} (h : l.length = 8) :
    ∃ a0 a1 a2 a3 a4 a5 a6 a7, l = [a0, a1, a2, a3, a4, a5, a6, a7] := by
  obtain ⟨a0, t0, rfl, h0⟩ := exists_cons_of_length h
  obtain ⟨a1, t1, rfl, h1⟩ := exists_cons_of_length h0
  obtain ⟨a2, t2, rfl, h2⟩ := exists_cons_of_length h1
  obtain ⟨a3, t3, rfl, h3⟩ := exists_cons_of_length h2
  obtain ⟨a4, t4, rfl, h4⟩ := exists_cons_of_length h3
  obtain ⟨a5, t5, rfl, h5⟩ := exists_cons_of_length h4
  obtain ⟨a6, t6, rfl, h6⟩ := exists_cons_of_length h5
  obtain ⟨a7, t7, rfl, h7⟩ := exists_cons_of_length h6
  cases t7 with
  | nil => exact ⟨a0, a1, a2, a3, a4, a5, a6, a7, rfl⟩
  | cons _ _ => simp at h7

theorem applyX_zero [Field α] (a0 a1 a2 a3 a4 a5 a6 a7 : α) :
    applyX 0 [a0, a1, a2, a3, a4, a5, a6, a7] = some [a1, a0, a3, a2, a5, a4, a7, a6] := rfl

theorem applyX_one [Field α] (a0 a1 a2 a3 a4 a5 a6 a7 : α) :
    applyX 1 [a0, a1, a2, a3, a4, a5, a6, a7] = some [a2, a3, a0, a1, a6, a7, a4, a5] := rfl

theorem applyX_two [Field α] (a0 a1 a2 a3 a4 a5 a6 a7 : α) :
    applyX 2 [a0, a1, a2, a3, a4, a5, a6, a7] = some [a4, a5, a6, a7, a0, a1, a2, a3] := rfl

theorem applyZ_zero [Field α] (a0 a1 a2 a3 a4 a5 a6 a7 : α) :
    applyZ 0 [a0, a1, a2, a3, a4, a5, a6, a7]
      = some [a0, a1 * (-1), a2, a3 * (-1), a4, a5 * (-1), a6, a7 * (-1)] := rfl

theorem applyZ_one [Field α] (a0 a1 a2 a3 a4 a5 a6 a7 : α) :
    applyZ 1 [a0, a1, a2, a3, a4, a5, a6, a7]
      = some [a0, a1, a2 * (-1), a3 * (-1), a4, a5, a6 * (-1), a7 * (-1)] := rfl

theorem applyZ_two [Field α] (a0 a1 a2 a3 a4 a5 a6 a7 : α) :
    applyZ 2 [a0, a1, a2, a3, a4, a5, a6, a7]
      = some [a0, a1, a2, a3, a4 * (-1), a5 * (-1), a6 * (-1), a7 * (-1)] := rfl

theorem prob0_zero {ρ : Type} [Zero ρ] [Add ρ] (norm : α → ρ) (a0 a1 a2 a3 a4 a5 a6 a7 : α) :
    prob0 norm 0 [a0, a1, a2, a3, a4, a5, a6, a7]
      = some (0 + norm a0 + norm a2 + norm a4 + norm a6) := rfl

theorem prob0_one {ρ : Type} [Zero ρ] [Add ρ] (norm : α → ρ) (a0 a1 a2 a3 a4 a5 a6 a7 : α) :
    prob0 norm 1 [a0, a1, a2, a3, a4, a5, a6, a7]
      = some (0 + norm a0 + norm a1 + norm a4 + norm a5) := rfl

theorem prob0_two {ρ : Type} [Zero ρ] [Add ρ] (norm : α → ρ) (a0 a1 a2 a3 a4 a5 a6 a7 : α) :
    prob0 norm 2 [a0, a1, a2, a3, a4, a5, a6, a7]
      = some (0 + norm a0 + norm a1 + norm a2 + norm a3) := rfl

theorem encodeBitFlip_eight [Field α] (s : α) (a0 a1 a2 a3 a4 a5 a6 a7 : α) :
    encodeBitFlip s [a0, a1, a2, a3, a4, a5, a6, a7]
      = some [1 / s, a1, a2, a3, a4, a5, a6, 1 / s] := rfl

theorem encodePhaseFlip_eight [Field α] (s : α) (a0 a1 a2 a3 a4 a5 a6 a7 : α) :
    encodePhaseFlip s [a0, a1, a2, a3, a4, a5, a6, a7]
      = some [1 / s, a1, a2, a3, a4, a5, a6, 1 / s] := rfl

theorem QuantumState_eight [Field α] :
    (QuantumState : Option (List α)) = some [1, 0, 0, 0, 0, 0, 0, 0] := rfl

theorem measureQubit_eight {ρ : Type} [Zero ρ] [Add ρ] (norm : α → ρ) {k : Nat} (hk : k < 3)
    (state : List α) (hlen : state.length = 8) :
    ∃ p, prob0 norm k state = some p ∧
      ∀ dist, measureQubit norm dist k state = some (if dist p then 0 else 1) := by
  obtain ⟨a0, a1, a2, a3, a4, a5, a6, a7, rfl⟩ := eq_of_length_eight hlen
  have h3 : k = 0 ∨ k = 1 ∨ k = 2 := by omega
  rcases h3 with rfl | rfl | rfl
  · exact ⟨_, prob0_zero norm _ _ _ _ _ _ _ _, fun _ => rfl⟩
  · exact ⟨_, prob0_one norm _ _ _ _ _ _ _ _, fun _ => rfl⟩
  · exact ⟨_, prob0_two norm _ _ _ _ _ _ _ _, fun _ => rfl⟩

theorem applyX_eight [Field α] {k : Nat} (hk : k < 3) (state : List α)
    (hlen : state.length = 8) :
    applyX k state = some (QAOA.tabulate 8 (fun t => QAOA.amp state (t ^^^ 2 ^ k))) := by
  obtain ⟨a0, a1, a2, a3, a4, a5, a6, a7, rfl⟩ := eq_of_length_eight hlen
  have h3 : k = 0 ∨ k = 1 ∨ k = 2 := by omega
  rcases h3 with rfl | rfl | rfl <;> rfl

theorem applyZ_eight [Field α] {k : Nat} (hk : k < 3) (state : List α)
    (hlen : state.length = 8) :
    ∃ new, applyZ k state = some new ∧ new.length = 8 := by
  obtain ⟨a0, a1, a2, a3, a4, a5, a6, a7, rfl⟩ := eq_of_length_eight hlen
  have h3 : k = 0 ∨ k = 1 ∨ k = 2 := by omega
  rcases h3 with rfl | rfl | rfl <;> exact ⟨_, rfl, rfl⟩

/-- C11: on a state of eight amplitudes the three `measureQubit` calls return
bits `b0`, `b1`, `b2` in `{0, 1}`, and `correctBitFlipError` (respectively
`correctPhaseFlipError`) prints the correction line of qubit `q` and returns
`applyX(q)` (respectively `applyZ(q)`) of the state exactly when bit `q` differs
from the other two bits, which are equal; it prints only the syndrome line and
returns the state unchanged exactly when the three bits agree.  Each outcome
holds at most one gate call. -/
theorem correction_majority_vote (gen : Nat → ℝ → Bool) (state : List ℂ)
    (hlen : state.length = 8) :
    ∃ (b0 b1 b2 : Nat) (x0 x1 x2 z0 z1 z2 : List ℂ),
      ((b0 = 0 ∨ b0 = 1) ∧ (b1 = 0 ∨ b1 = 1) ∧ (b2 = 0 ∨ b2 = 1)) ∧
      (measureQubit Complex.normSq (gen 0) 0 state = some b0 ∧
       measureQubit Complex.normSq (gen 1) 1 state = some b1 ∧
       measureQubit Complex.normSq (gen 2) 2 state = some b2) ∧
      (applyX 0 state = some x0 ∧ applyX 1 state = some x1 ∧ applyX 2 state = some x2) ∧
      (applyZ 0 state = some z0 ∧ applyZ 1 state = some z1 ∧ applyZ 2 state = some z2) ∧
      ((b0 ≠ b1 ∧ b1 = b2 ↔ correctBitFlipError Complex.normSq gen state
          = some ([syndromeLine b0 b1 b2, "Correcting error on qubit 0"], x0)) ∧
       (b1 ≠ b0 ∧ b0 = b2 ↔ correctBitFlipError Complex.normSq gen state
          = some ([syndromeLine b0 b1 b2, "Correcting error on qubit 1"], x1)) ∧
       (b2 ≠ b0 ∧ b0 = b1 ↔ correctBitFlipError Complex.normSq gen state
          = some ([syndromeLine b0 b1 b2, "Correcting error on qubit 2"], x2)) ∧
       (b0 = b1 ∧ b1 = b2 ↔ correctBitFlipError Complex.normSq gen state
          = some ([syndromeLine b0 b1 b2], state))) ∧
      ((b0 ≠ b1 ∧ b1 = b2 ↔ correctPhaseFlipError Complex.normSq gen state
          = some ([syndromeLine b0 b1 b2, "Correcting phase error on qubit 0"], z0)) ∧
       (b1 ≠ b0 ∧ b0 = b2 ↔ correctPhaseFlipError Complex.normSq gen state
          = some ([syndromeLine b0 b1 b2, "Correcting phase error on qubit 1"], z1)) ∧
       (b2 ≠ b0 ∧ b0 = b1 ↔ correctPhaseFlipError Complex.normSq gen state
          = some ([syndromeLine b0 b1 b2, "Correcting phase error on qubit 2"], z2)) ∧
       (b0 = b1 ∧ b1 = b2 ↔ correctPhaseFlipError Complex.normSq gen state
          = some ([syndromeLine b0 b1 b2], state))) := by
  obtain ⟨p0, -, h0⟩ := measureQubit_eight Complex.normSq (by decide : 0 < 3) state hlen
  obtain ⟨p1, -, h1⟩ := measureQubit_eight Complex.normSq (by decide : 1 < 3) state hlen
  obtain ⟨p2, -, h2⟩ := measureQubit_eight Complex.normSq (by decide : 2 < 3) state hlen
  have hx0 := applyX_eight (by decide : 0 < 3) state hlen
  have hx1 := applyX_eight (by decide : 1 < 3) state hlen
  have hx2 := applyX_eight (by decide : 2 < 3) state hlen
  obtain ⟨z0, hz0, -⟩ := applyZ_eight (by decide : 0 < 3) state hlen
  obtain ⟨z1, hz1, -⟩ := applyZ_eight (by decide : 1 < 3) state hlen
  obtain ⟨z2, hz2, -⟩ := applyZ_eight (by decide : 2 < 3) state hlen
  refine ⟨_, _, _, _, _, _, z0, z1, z2, ?_, ⟨h0 (gen 0), h1 (gen 1), h2 (gen 2)⟩,
    ⟨hx0, hx1, hx2⟩, ⟨hz0, hz1, hz2⟩, ?_, ?_⟩
  · refine ⟨?_, ?_, ?_⟩ <;> split <;> simp
  · unfold correctBitFlipError
    rw [h0 (gen 0), h1 (gen 1), h2 (gen 2), hx0, hx1, hx2]
    cases gen 0 p0 <;> cases gen 1 p1 <;> cases gen 2 p2 <;> simp
  · unfold correctPhaseFlipError
    rw [h0 (gen 0), h1 (gen 1), h2 (gen 2), hz0, hz1, hz2]
    cases gen 0 p0 <;> cases gen 1 p1 <;> cases gen 2 p2 <;> simp

/-- Witness of C11: the encoded state with a bit flip on qubit `1`, and draws
that give the syndrome `0 1 0`. -/
theorem correction_majority_vote_witness :
    ([0, 0, 1, 0, 0, 1, 0, 0] : List ℂ).length = 8 ∧
    ∃ (b0 b1 b2 : Nat) (x0 x1 x2 z0 z1 z2 : List ℂ),
      ((b0 = 0 ∨ b0 = 1) ∧ (b1 = 0 ∨ b1 = 1) ∧ (b2 = 0 ∨ b2 = 1)) ∧
      (measureQubit Complex.normSq (fun _ => true) 0 ([0, 0, 1, 0, 0, 1, 0, 0] : List ℂ)
          = some b0 ∧
       measureQubit Complex.normSq (fun _ => false) 1 ([0, 0, 1, 0, 0, 1, 0, 0] : List ℂ)
          = some b1 ∧
       measureQubit Complex.normSq (fun _ => true) 2 ([0, 0, 1, 0, 0, 1, 0, 0] : List ℂ)
          = some b2) ∧
      (applyX 0 ([0, 0, 1, 0, 0, 1, 0, 0] : List ℂ) = some x0 ∧
       applyX 1 ([0, 0, 1, 0, 0, 1, 0, 0] : List ℂ) = some x1 ∧
       applyX 2 ([0, 0, 1, 0, 0, 1, 0, 0] : List ℂ) = some x2) ∧
      (applyZ 0 ([0, 0, 1, 0, 0, 1, 0, 0] : List ℂ) = some z0 ∧
       applyZ 1 ([0, 0, 1, 0, 0, 1, 0, 0] : List ℂ) = some z1 ∧
       applyZ 2 ([0, 0, 1, 0, 0, 1, 0, 0] : List ℂ) = some z2) ∧
      ((b0 ≠ b1 ∧ b1 = b2 ↔
          correctBitFlipError Complex.normSq (fun i _ => i != 1) [0, 0, 1, 0, 0, 1, 0, 0]
            = some ([syndromeLine b0 b1 b2, "Correcting error on qubit 0"], x0)) ∧
       (b1 ≠ b0 ∧ b0 = b2 ↔
          correctBitFlipError Complex.normSq (fun i _ => i != 1) [0, 0, 1, 0, 0, 1, 0, 0]
            = some ([syndromeLine b0 b1 b2, "Correcting error on qubit 1"], x1)) ∧
       (b2 ≠ b0 ∧ b0 = b1 ↔
          correctBitFlipError Complex.normSq (fun i _ => i != 1) [0, 0, 1, 0, 0, 1, 0, 0]
            = some ([syndromeLine b0 b1 b2, "Correcting error on qubit 2"], x2)) ∧
       (b0 = b1 ∧ b1 = b2 ↔
          correctBitFlipError Complex.normSq (fun i _ => i != 1) [0, 0, 1, 0, 0, 1, 0, 0]
            = some ([syndromeLine b0 b1 b2], [0, 0, 1, 0, 0, 1, 0, 0]))) ∧
      ((b0 ≠ b1 ∧ b1 = b2 ↔
          correctPhaseFlipError Complex.normSq (fun i _ => i != 1) [0, 0, 1, 0, 0, 1, 0, 0]
            = some ([syndromeLine b0 b1 b2, "Correcting phase error on qubit 0"], z0)) ∧
       (b1 ≠ b0 ∧ b0 = b2 ↔
          correctPhaseFlipError Complex.normSq (fun i _ => i != 1) [0, 0, 1, 0, 0, 1, 0, 0]
            = some ([syndromeLine b0 b1 b2, "Correcting phase error on qubit 1"], z1)) ∧
       (b2 ≠ b0 ∧ b0 = b1 ↔
          correctPhaseFlipError Complex.normSq (fun i _ => i != 1) [0, 0, 1, 0, 0, 1, 0, 0]
            = some ([syndromeLine b0 b1 b2, "Correcting phase error on qubit 2"], z2)) ∧
       (b0 = b1 ∧ b1 = b2 ↔
          correctPhaseFlipError Complex.normSq (fun i _ => i != 1) [0, 0, 1, 0, 0, 1, 0, 0]
            = some ([syndromeLine b0 b1 b2], [0, 0, 1, 0, 0, 1, 0, 0]))) :=
  ⟨rfl, correction_majority_vote (fun i _ => i != 1) [0, 0, 1, 0, 0, 1, 0, 0] rfl⟩

theorem normSq_inv_sqrt2 : Complex.normSq (1 / ((Real.sqrt 2 : ℝ) : ℂ)) = 1 / 2 := by
  rw [map_div₀, Complex.normSq_ofReal, Real.mul_self_sqrt (by norm_num)]
  simp

/-- C12, the code at the failing input: after the constructor and `applyX(0)`
the state is the basis state of index `1`; `encodeBitFlip` and
`encodePhaseFlip` then write indices `0` and `7` only, so the amplitude at
index `1` is still `1`, not `0`. -/
theorem encode_keeps_other_amplitudes :
    (QuantumState : Option (List ℂ)).bind (applyX 0) = some [0, 1, 0, 0, 0, 0, 0, 0] ∧
    encodeBitFlip ((Real.sqrt 2 : ℝ) : ℂ) [0, 1, 0, 0, 0, 0, 0, 0]
      = some [1 / ((Real.sqrt 2 : ℝ) : ℂ), 1, 0, 0, 0, 0, 0, 1 / ((Real.sqrt 2 : ℝ) : ℂ)] ∧
    encodePhaseFlip ((Real.sqrt 2 : ℝ) : ℂ) [0, 1, 0, 0, 0, 0, 0, 0]
      = some [1 / ((Real.sqrt 2 : ℝ) : ℂ), 1, 0, 0, 0, 0, 0, 1 / ((Real.sqrt 2 : ℝ) : ℂ)] ∧
    ([1 / ((Real.sqrt 2 : ℝ) : ℂ), 1, 0, 0, 0, 0, 0, 1 / ((Real.sqrt 2 : ℝ) : ℂ)] : List ℂ)[1]?
      ≠ some 0 := by
  refine ⟨rfl, rfl, rfl, ?_⟩
  simp

/-- The encoders on the freshly constructed state: amplitude `1/sqrt 2` at
indices `0` and `7`, zero at the indices `1 .. 6`. -/
theorem encode_fresh [Field α] (s : α) :
    (QuantumState : Option (List α)).bind (encodeBitFlip s)
      = some [1 / s, 0, 0, 0, 0, 0, 0, 1 / s] ∧
    (QuantumState : Option (List α)).bind (encodePhaseFlip s)
      = some [1 / s, 0, 0, 0, 0, 0, 0, 1 / s] :=
  ⟨rfl, rfl⟩

/-- C13: from the fresh state, `encodeBitFlip` gives the encoded state
(`1/sqrt 2` at indices `0` and `7`, zero elsewhere) and the error `applyX(q)`,
`q < 3`, an errored state.  On it the three measurements return bits `b0`,
`b1`, `b2`; when bit `q` is the single one that disagrees with the other two,
`correctBitFlipError` prints the correction line of qubit `q` and returns the
encoded state; when the three bits agree it prints the syndrome line only and
returns the errored state unchanged. -/
theorem bitflip_error_corrected (q : Nat) (hq : q < 3) (gen : Nat → ℝ → Bool) :
    ∃ (encoded errored : List ℂ) (b0 b1 b2 : Nat),
      (QuantumState : Option (List ℂ)).bind (encodeBitFlip ((Real.sqrt 2 : ℝ) : ℂ))
        = some encoded ∧
      encoded = [1 / ((Real.sqrt 2 : ℝ) : ℂ), 0, 0, 0, 0, 0, 0, 1 / ((Real.sqrt 2 : ℝ) : ℂ)] ∧
      applyX q encoded = some errored ∧
      (measureQubit Complex.normSq (gen 0) 0 errored = some b0 ∧
       measureQubit Complex.normSq (gen 1) 1 errored = some b1 ∧
       measureQubit Complex.normSq (gen 2) 2 errored = some b2) ∧
      ((q = 0 ∧ b0 ≠ b1 ∧ b1 = b2) ∨ (q = 1 ∧ b1 ≠ b0 ∧ b0 = b2) ∨
          (q = 2 ∧ b2 ≠ b0 ∧ b0 = b1) →
        correctBitFlipError Complex.normSq gen errored
          = some ([syndromeLine b0 b1 b2, "Correcting error on qubit " ++ toString q],
              encoded)) ∧
      (b0 = b1 ∧ b1 = b2 →
        correctBitFlipError Complex.normSq gen errored
          = some ([syndromeLine b0 b1 b2], errored)) := by
  have hlenE : ([1 / ((Real.sqrt 2 : ℝ) : ℂ), 0, 0, 0, 0, 0, 0,
      1 / ((Real.sqrt 2 : ℝ) : ℂ)] : List ℂ).length = 8 := rfl
  have hx := applyX_eight hq _ hlenE
  have hlen : (QAOA.tabulate 8 (fun t => QAOA.amp ([1 / ((Real.sqrt 2 : ℝ) : ℂ), 0, 0, 0, 0,
      0, 0, 1 / ((Real.sqrt 2 : ℝ) : ℂ)] : List ℂ) (t ^^^ 2 ^ q))).length = 8 :=
    QAOA.length_tabulate _ _
  obtain ⟨p0, -, h0⟩ := measureQubit_eight Complex.normSq (by decide : 0 < 3) _ hlen
  obtain ⟨p1, -, h1⟩ := measureQubit_eight Complex.normSq (by decide : 1 < 3) _ hlen
  obtain ⟨p2, -, h2⟩ := measureQubit_eight Complex.normSq (by decide : 2 < 3) _ hlen
  refine ⟨_, _, _, _, _, rfl, rfl, hx, ⟨h0 (gen 0), h1 (gen 1), h2 (gen 2)⟩, ?_, ?_⟩
  · have h3 : q = 0 ∨ q = 1 ∨ q = 2 := by omega
    unfold correctBitFlipError
    rw [h0 (gen 0), h1 (gen 1), h2 (gen 2)]
    have e0 : applyX 0 (QAOA.tabulate 8 (fun t => QAOA.amp ([1 / ((Real.sqrt 2 : ℝ) : ℂ), 0,
        0, 0, 0, 0, 0, 1 / ((Real.sqrt 2 : ℝ) : ℂ)] : List ℂ) (t ^^^ 2 ^ 0)))
        = some [1 / ((Real.sqrt 2 : ℝ) : ℂ), 0, 0, 0, 0, 0, 0, 1 / ((Real.sqrt 2 : ℝ) : ℂ)] :=
      rfl
    have e1 : applyX 1 (QAOA.tabulate 8 (fun t => QAOA.amp ([1 / ((Real.sqrt 2 : ℝ) : ℂ), 0,
        0, 0, 0, 0, 0, 1 / ((Real.sqrt 2 : ℝ) : ℂ)] : List ℂ) (t ^^^ 2 ^ 1)))
        = some [1 / ((Real.sqrt 2 : ℝ) : ℂ), 0, 0, 0, 0, 0, 0, 1 / ((Real.sqrt 2 : ℝ) : ℂ)] :=
      rfl
    have e2 : applyX 2 (QAOA.tabulate 8 (fun t => QAOA.amp ([1 / ((Real.sqrt 2 : ℝ) : ℂ), 0,
        0, 0, 0, 0, 0, 1 / ((Real.sqrt 2 : ℝ) : ℂ)] : List ℂ) (t ^^^ 2 ^ 2)))
        = some [1 / ((Real.sqrt 2 : ℝ) : ℂ), 0, 0, 0, 0, 0, 0, 1 / ((Real.sqrt 2 : ℝ) : ℂ)] :=
      rfl
    rcases h3 with rfl | rfl | rfl
    · rw [e0]
      cases gen 0 p0 <;> cases gen 1 p1 <;> cases gen 2 p2 <;> simp <;> rfl
    · rw [e1]
      cases gen 0 p0 <;> cases gen 1 p1 <;> cases gen 2 p2 <;> simp <;> rfl
    · rw [e2]
      cases gen 0 p0 <;> cases gen 1 p1 <;> cases gen 2 p2 <;> simp <;> rfl
  · unfold correctBitFlipError
    rw [h0 (gen 0), h1 (gen 1), h2 (gen 2)]
    cases gen 0 p0 <;> cases gen 1 p1 <;> cases gen 2 p2 <;> simp

/-- Witness of C13: the error on qubit `1`, draws giving the syndrome `0 1 0`. -/
theorem bitflip_error_corrected_witness :
    1 < 3 ∧
    ∃ (encoded errored : List ℂ) (b0 b1 b2 : Nat),
      (QuantumState : Option (List ℂ)).bind (encodeBitFlip ((Real.sqrt 2 : ℝ) : ℂ))
        = some encoded ∧
      encoded = [1 / ((Real.sqrt 2 : ℝ) : ℂ), 0, 0, 0, 0, 0, 0, 1 / ((Real.sqrt 2 : ℝ) : ℂ)] ∧
      applyX 1 encoded = some errored ∧
      (measureQubit Complex.normSq (fun _ => true) 0 errored = some b0 ∧
       measureQubit Complex.normSq (fun _ => false) 1 errored = some b1 ∧
       measureQubit Complex.normSq (fun _ => true) 2 errored = some b2) ∧
      ((1 = 0 ∧ b0 ≠ b1 ∧ b1 = b2) ∨ (1 = 1 ∧ b1 ≠ b0 ∧ b0 = b2) ∨
          (1 = 2 ∧ b2 ≠ b0 ∧ b0 = b1) →
        correctBitFlipError Complex.normSq (fun i _ => i != 1) errored
          = some ([syndromeLine b0 b1 b2, "Correcting error on qubit " ++ toString 1],
              encoded)) ∧
      (b0 = b1 ∧ b1 = b2 →
        correctBitFlipError Complex.normSq (fun i _ => i != 1) errored
          = some ([syndromeLine b0 b1 b2], errored)) :=
  ⟨by decide, bitflip_error_corrected 1 (by decide) (fun i _ => i != 1)⟩

/-- C16: for `k < 3` and a vector of eight amplitudes, the out-of-place
`applyX(k)` of `QEC.h` returns `new` with `new[i] = old[i xor 2^k]` for every
`i < 8`, and the in-place `applyX(k, 3)` of `QAOA.h` returns the same vector. -/
theorem applyX_out_of_place_eq_in_place (k : Nat) (hk : k < 3) (state : List ℂ)
    (hlen : state.length = 8) :
    ∃ new : List ℂ,
      applyX k state = some new ∧ new.length = 8 ∧
      (∀ i, i < 8 → new[i]? = some (state.getD (i ^^^ 2 ^ k) 0)) ∧
      QAOA.applyX k 3 state = some new := by
  refine ⟨_, applyX_eight hk state hlen, QAOA.length_tabulate _ _, ?_,
    QAOA.applyX_eq hk state hlen⟩
  intro i hi
  rw [QAOA.tabulate_getElem_opt, if_pos hi]
  rfl

/-- Witness of C16: qubit `1`, the vector `[1, 2, 3, 4, 5, 6, 7, 8]`. -/
theorem applyX_out_of_place_eq_in_place_witness :
    1 < 3 ∧ ([1, 2, 3, 4, 5, 6, 7, 8] : List ℂ).length = 8 ∧
    ∃ new : List ℂ,
      applyX 1 ([1, 2, 3, 4, 5, 6, 7, 8] : List ℂ) = some new ∧ new.length = 8 ∧
      (∀ i, i < 8 → new[i]? = some (([1, 2, 3, 4, 5, 6, 7, 8] : List ℂ).getD (i ^^^ 2 ^ 1) 0)) ∧
      QAOA.applyX 1 3 ([1, 2, 3, 4, 5, 6, 7, 8] : List ℂ) = some new :=
  ⟨by decide, rfl, applyX_out_of_place_eq_in_place 1 (by decide) _ rfl⟩

/-- C18: for every error qubit `q < 3` and measured qubit `k < 3`, in the state
obtained from the fresh state by `encodeBitFlip` and `applyX(q)` the
probability `prob_0` that `measureQubit(k)` computes is exactly `1/2`, as it is
in the encoded state without error; so whatever the draw, `measureQubit(k)`
passes it the same probability with or without the error, for every `q`. -/
theorem syndrome_probability_half (q k : Nat) (hq : q < 3) (hk : k < 3) :
    ∃ encoded errored : List ℂ,
      (QuantumState : Option (List ℂ)).bind (encodeBitFlip ((Real.sqrt 2 : ℝ) : ℂ))
        = some encoded ∧
      applyX q encoded = some errored ∧
      prob0 Complex.normSq k errored = some (1 / 2) ∧
      prob0 Complex.normSq k encoded = some (1 / 2) ∧
      ∀ dist : ℝ → Bool,
        measureQubit Complex.normSq dist k errored = some (if dist (1 / 2) then 0 else 1) ∧
        measureQubit Complex.normSq dist k encoded = some (if dist (1 / 2) then 0 else 1) := by
  have key : ∀ (l : List ℂ), prob0 Complex.normSq k l = some (1 / 2) →
      ∀ dist : ℝ → Bool,
        measureQubit Complex.normSq dist k l = some (if dist (1 / 2) then 0 else 1) := by
    intro l h dist
    unfold measureQubit
    rw [h]
    rfl
  have hn := normSq_inv_sqrt2
  have hp : ∀ (l : List ℂ),
      l = [1 / ((Real.sqrt 2 : ℝ) : ℂ), 0, 0, 0, 0, 0, 0, 1 / ((Real.sqrt 2 : ℝ) : ℂ)] ∨
      l = [0, 1 / ((Real.sqrt 2 : ℝ) : ℂ), 0, 0, 0, 0, 1 / ((Real.sqrt 2 : ℝ) : ℂ), 0] ∨
      l = [0, 0, 1 / ((Real.sqrt 2 : ℝ) : ℂ), 0, 0, 1 / ((Real.sqrt 2 : ℝ) : ℂ), 0, 0] ∨
      l = [0, 0, 0, 1 / ((Real.sqrt 2 : ℝ) : ℂ), 1 / ((Real.sqrt 2 : ℝ) : ℂ), 0, 0, 0] →
      prob0 Complex.normSq k l = some (1 / 2) := by
    intro l hl
    have h3 : k = 0 ∨ k = 1 ∨ k = 2 := by omega
    rcases hl with rfl | rfl | rfl | rfl <;> rcases h3 with rfl | rfl | rfl <;>
      first
        | (rw [prob0_zero, hn]; simp)
        | (rw [prob0_one, hn]; simp)
        | (rw [prob0_two, hn]; simp)
  have h3 : q = 0 ∨ q = 1 ∨ q = 2 := by omega
  have he := hp _ (Or.inl rfl)
  rcases h3 with rfl | rfl | rfl
  · have hq := hp _ (Or.inr (Or.inl rfl))
    exact ⟨_, _, rfl, applyX_zero _ _ _ _ _ _ _ _, hq, he, fun d => ⟨key _ hq d, key _ he d⟩⟩
  · have hq := hp _ (Or.inr (Or.inr (Or.inl rfl)))
    exact ⟨_, _, rfl, applyX_one _ _ _ _ _ _ _ _, hq, he, fun d => ⟨key _ hq d, key _ he d⟩⟩
  · have hq := hp _ (Or.inr (Or.inr (Or.inr rfl)))
    exact ⟨_, _, rfl, applyX_two _ _ _ _ _ _ _ _, hq, he, fun d => ⟨key _ hq d, key _ he d⟩⟩

/-- Witness of C18: error on qubit `2`, measured qubit `0`. -/
theorem syndrome_probability_half_witness :
    2 < 3 ∧ 0 < 3 ∧
    ∃ encoded errored : List ℂ,
      (QuantumState : Option (List ℂ)).bind (encodeBitFlip ((Real.sqrt 2 : ℝ) : ℂ))
        = some encoded ∧
      applyX 2 encoded = some errored ∧
      prob0 Complex.normSq 0 errored = some (1 / 2) ∧
      prob0 Complex.normSq 0 encoded = some (1 / 2) ∧
      ∀ dist : ℝ → Bool,
        measureQubit Complex.normSq dist 0 errored = some (if dist (1 / 2) then 0 else 1) ∧
        measureQubit Complex.normSq dist 0 encoded = some (if dist (1 / 2) then 0 else 1) :=
  ⟨by decide, by decide, syndrome_probability_half 2 0 (by decide) (by decide)⟩

end QEC
